import Mathlib

/-!
Verification development for the `rename-wheel` repository
(`src/spare_tire`): a wheel renaming engine and a PEP 503 proxy.

Shallow embedding conventions:
* Python strings and byte strings are both modelled as `Str := List Char`;
  an entry's raw bytes are the characters of the list (one `Char` per byte,
  UTF-8 decode/encode is the identity on this representation).  All string
  operations used by the source (`split`, `replace`, `startswith`, slicing,
  `lower`, `join`, regular-expression substitution) are given executable
  models below that follow CPython semantics on this representation
  (character classes such as `\w`, `\s`, `isdigit` are modelled on their
  ASCII part, which covers package names, paths, and metadata).
* A wheel archive (a zip container) is modelled by its ordered list of
  entries `(name, content)`; `zipfile.ZipFile.namelist`/`read` enumerate
  exactly these, and writing an archive is modelled as producing the list
  of entries that are written, in the order they are written.
* `dict` objects are modelled as association lists with unique keys where
  insertion overwrites in place (`upsertEntry`).
* SHA-256 itself is kept abstract: the model functions are parameterised
  by a digest function `sha : Str → List Nat` producing the raw digest
  bytes; everything downstream of the digest (`base64.urlsafe_b64encode`,
  `rstrip("=")`, the `sha256=` prefix, RECORD line formatting) is modelled
  concretely.
* Python exceptions (`ValueError`, `FileNotFoundError`, `IndexError`) are
  modelled with `Except Str`; the message string of an explicit `raise` is
  kept.
-/

/-- Python strings / byte strings: a list of characters (code points; for
byte strings, one character per byte). -/
abbrev Str := List Char

/-- Decidable substring test, Python's `sub in s`. -/
def containsSub (s pat : Str) : Bool :=
  match s with
  | [] => pat.isPrefixOf ([] : Str)
  | _ :: rest => pat.isPrefixOf s || containsSub rest pat

/-- Python `str.split(sep)` for a single-character separator: splits at
every occurrence, keeping empty pieces (`"a--b".split("-") = ["a","","b"]`). -/
def splitOnCh (c : Char) : Str → List Str
  | [] => [[]]
  | d :: rest =>
    let r := splitOnCh c rest
    if d = c then [] :: r
    else
      match r with
      | [] => [[d]]
      | p :: ps => (d :: p) :: ps

/-- Python `sep.join(parts)` for a single-character separator. -/
def joinCh (c : Char) (parts : List Str) : Str :=
  List.intercalate [c] parts

/-- Characters treated as separators by the PEP 503 normalisation regex
`[-_.]+` in `spare_tire/rename.py`. -/
def isSepChar (c : Char) : Bool := c = '-' || c = '_' || c = '.'

/-- Character-by-character scan for `collapseSeps`: `inRun` records
whether the previous character was a separator (so the run is collapsed
to a single replacement character). -/
def collapseSepsAux (repl : Char) (inRun : Bool) : Str → Str
  | [] => []
  | c :: rest =>
    if isSepChar c then
      if inRun then collapseSepsAux repl true rest
      else repl :: collapseSepsAux repl true rest
    else c :: collapseSepsAux repl false rest

/-- Collapse every run of `-`/`_`/`.` to a single replacement character:
the effect of `re.sub(r"[-_.]+", repl, name)` for a one-character `repl`. -/
def collapseSeps (repl : Char) (s : Str) : Str :=
  collapseSepsAux repl false s

/-- `_normalize_name` from `spare_tire/rename.py` (lines 15-17):
`re.sub(r"[-_.]+", "_", name).lower()`. -/
def normalizeName (name : Str) : Str :=
  (collapseSeps '_' name).map Char.toLower

/-- The last index of `c` in `s`, Python `str.rfind` (for a present
character); `none` when absent. -/
def rfindCh (c : Char) (s : Str) : Option Nat :=
  match s with
  | [] => none
  | d :: rest =>
    match rfindCh c rest with
    | some i => some (i + 1)
    | none => if d = c then some 0 else none

/-- `pathlib.PurePath(...).stem` for a path string: the final
`/`-separated component without its last suffix (a suffix needs a dot
that is neither the first nor the last character of the component). -/
def pyStem (s : Str) : Str :=
  let name := (splitOnCh '/' s).getLastD []
  match rfindCh '.' name with
  | none => name
  | some i => if 0 < i ∧ i < name.length - 1 then name.take i else name

/-- Python ASCII decimal digit test (`str.isdigit` on ASCII input). -/
def pyIsDigit (c : Char) : Bool := '0' ≤ c && c ≤ '9'

/-- Parsed wheel-filename components, the dict produced by
`_parse_wheel_filename` (`build = []` encodes the empty build tag). -/
structure WheelComponents where
  distribution : Str
  version : Str
  build : Str
  python : Str
  abi : Str
  platform : Str
deriving Repr, DecidableEq

/-- `_parse_wheel_filename` from `spare_tire/rename.py` (lines 28-57):
strip the extension with `Path(filename).stem`, split on `-`, fail on
fewer than 5 segments, and treat a digit-initial third segment of a
6-or-more-segment name as the build tag.  (`parts[2][0]` on an empty
third segment raises `IndexError` in Python; modelled as an error.) -/
def parseWheelFilename (filename : Str) : Except Str WheelComponents :=
  let name := pyStem filename
  let parts := splitOnCh '-' name
  if parts.length < 5 then .error ("Invalid wheel filename: ".data ++ filename)
  else if 6 ≤ parts.length then
    match parts.getD 2 [] with
    | [] => .error "string index out of range".data
    | c :: _ =>
      if pyIsDigit c then
        .ok ⟨parts.getD 0 [], parts.getD 1 [], parts.getD 2 [],
             parts.getD 3 [], parts.getD 4 [], parts.getD 5 []⟩
      else
        .ok ⟨parts.getD 0 [], parts.getD 1 [], [],
             parts.getD 2 [], parts.getD 3 [], parts.getD 4 []⟩
  else
    .ok ⟨parts.getD 0 [], parts.getD 1 [], [],
         parts.getD 2 [], parts.getD 3 [], parts.getD 4 []⟩

/-- `_build_wheel_filename` from `spare_tire/rename.py` (lines 60-66):
join the components with `-`, omitting an empty build tag, and append
`.whl`. -/
def buildWheelFilename (c : WheelComponents) : Str :=
  let parts := [c.distribution, c.version]
    ++ (if c.build ≠ [] then [c.build] else [])
    ++ [c.python, c.abi, c.platform]
  joinCh '-' parts ++ ".whl".data

/-! Basic lemmas about the string machinery. -/

theorem joinCh_cons_cons (c : Char) (a b : Str) (l : List Str) :
    joinCh c (a :: b :: l) = a ++ c :: joinCh c (b :: l) := by
  simp [joinCh, List.intercalate, List.intersperse]

theorem splitOnCh_of_not_mem (c : Char) (s : Str) (h : ∀ x ∈ s, x ≠ c) :
    splitOnCh c s = [s] := by
  induction s with
  | nil => rfl
  | cons d rest ih =>
    have hd : d ≠ c := h d (by simp)
    have hrest : splitOnCh c rest = [rest] := ih fun x hx => h x (by simp [hx])
    simp [splitOnCh, hrest, hd]

theorem splitOnCh_append_cons (c : Char) (s t : Str) (h : ∀ x ∈ s, x ≠ c) :
    splitOnCh c (s ++ c :: t) = s :: splitOnCh c t := by
  induction s with
  | nil => simp [splitOnCh]
  | cons d rest ih =>
    have hd : d ≠ c := h d (by simp)
    have hih := ih fun x hx => h x (by simp [hx])
    simp [splitOnCh, hih, hd]

theorem splitOnCh_joinCh (c : Char) (segs : List Str) (hne : segs ≠ [])
    (h : ∀ s ∈ segs, ∀ x ∈ s, x ≠ c) : splitOnCh c (joinCh c segs) = segs := by
  induction segs with
  | nil => exact absurd rfl hne
  | cons a rest ih =>
    match rest with
    | [] =>
      have : joinCh c [a] = a := by simp [joinCh, List.intercalate]
      rw [this]
      exact splitOnCh_of_not_mem c a (h a (by simp))
    | b :: l =>
      rw [joinCh_cons_cons]
      rw [splitOnCh_append_cons c a _ (h a (by simp))]
      rw [ih (by simp) fun s hs => h s (List.mem_cons_of_mem a hs)]

theorem mem_joinCh (c : Char) (segs : List Str) (x : Char)
    (hx : x ∈ joinCh c segs) : x = c ∨ ∃ s ∈ segs, x ∈ s := by
  induction segs with
  | nil => simp [joinCh, List.intercalate] at hx
  | cons a rest ih =>
    match rest with
    | [] =>
      simp [joinCh, List.intercalate] at hx
      exact Or.inr ⟨a, by simp, hx⟩
    | b :: l =>
      rw [joinCh_cons_cons] at hx
      rcases List.mem_append.1 hx with h1 | h2
      · exact Or.inr ⟨a, by simp, h1⟩
      · rcases List.mem_cons.1 h2 with h3 | h4
        · exact Or.inl h3
        · rcases ih h4 with h5 | ⟨s, hs, hxs⟩
          · exact Or.inl h5
          · exact Or.inr ⟨s, List.mem_cons_of_mem a hs, hxs⟩

theorem rfindCh_append_of_some (c : Char) (s t : Str) (j : Nat)
    (h : rfindCh c t = some j) : rfindCh c (s ++ t) = some (s.length + j) := by
  induction s with
  | nil => simpa using h
  | cons d rest ih =>
    simp only [List.cons_append, rfindCh, List.append_eq, ih, List.length_cons]
    exact congrArg some (by omega)

theorem pyStem_append_whl (name : Str) (hne : name ≠ [])
    (hslash : ∀ x ∈ name, x ≠ '/') :
    pyStem (name ++ ".whl".data) = name := by
  have hslashf : ∀ x ∈ name ++ ".whl".data, x ≠ '/' := by
    intro x hx
    rcases List.mem_append.1 hx with h1 | h2
    · exact hslash x h1
    · fin_cases h2 <;> decide
  have hsplit : splitOnCh '/' (name ++ ".whl".data) = [name ++ ".whl".data] :=
    splitOnCh_of_not_mem '/' _ hslashf
  have hrfind : rfindCh '.' (name ++ ".whl".data) = some name.length := by
    have h0 : rfindCh '.' ".whl".data = some 0 := by decide
    simpa using rfindCh_append_of_some '.' name ".whl".data 0 h0
  have hlen : 0 < name.length := List.length_pos.2 hne
  have hg : ([name ++ ".whl".data] : List Str).getLastD [] = name ++ ".whl".data := rfl
  have hcond : 0 < name.length ∧ name.length < (name ++ ".whl".data).length - 1 := by
    constructor
    · exact hlen
    · simp [List.length_append]
  simp only [pyStem, hsplit, hg, hrfind]
  rw [if_pos hcond]
  exact List.take_left name ".whl".data

theorem joinCh_ne_nil_of_two (c : Char) (a b : Str) (l : List Str) :
    joinCh c (a :: b :: l) ≠ [] := by
  rw [joinCh_cons_cons]
  intro h
  have := congrArg List.length h
  simp [List.length_append] at this

theorem parseWheelFilename_build_noBuild (d v py abi plat : Str)
    (hdash : ∀ s ∈ [d, v, py, abi, plat], ∀ x ∈ s, x ≠ '-')
    (hslash : ∀ s ∈ [d, v, py, abi, plat], ∀ x ∈ s, x ≠ '/') :
    parseWheelFilename (buildWheelFilename ⟨d, v, [], py, abi, plat⟩)
      = .ok ⟨d, v, [], py, abi, plat⟩ := by
  have hbuild : buildWheelFilename ⟨d, v, [], py, abi, plat⟩
      = joinCh '-' [d, v, py, abi, plat] ++ ".whl".data := by
    simp [buildWheelFilename]
  have hslashname : ∀ x ∈ joinCh '-' [d, v, py, abi, plat], x ≠ '/' := by
    intro x hx
    rcases mem_joinCh '-' _ x hx with h1 | ⟨s, hs, hxs⟩
    · rw [h1]; decide
    · exact hslash s hs x hxs
  have hstem : pyStem (joinCh '-' [d, v, py, abi, plat] ++ ".whl".data)
      = joinCh '-' [d, v, py, abi, plat] :=
    pyStem_append_whl _ (joinCh_ne_nil_of_two _ _ _ _) hslashname
  have hsplit : splitOnCh '-' (joinCh '-' [d, v, py, abi, plat]) = [d, v, py, abi, plat] :=
    splitOnCh_joinCh '-' _ (by simp) hdash
  rw [hbuild]
  simp [parseWheelFilename, hstem, hsplit, List.getD]

theorem parseWheelFilename_build_withBuild (d v py abi plat : Str) (c : Char) (brest : Str)
    (hc : pyIsDigit c = true)
    (hdash : ∀ s ∈ [d, v, c :: brest, py, abi, plat], ∀ x ∈ s, x ≠ '-')
    (hslash : ∀ s ∈ [d, v, c :: brest, py, abi, plat], ∀ x ∈ s, x ≠ '/') :
    parseWheelFilename (buildWheelFilename ⟨d, v, c :: brest, py, abi, plat⟩)
      = .ok ⟨d, v, c :: brest, py, abi, plat⟩ := by
  have hbuild : buildWheelFilename ⟨d, v, c :: brest, py, abi, plat⟩
      = joinCh '-' [d, v, c :: brest, py, abi, plat] ++ ".whl".data := by
    simp [buildWheelFilename]
  have hslashname : ∀ x ∈ joinCh '-' [d, v, c :: brest, py, abi, plat], x ≠ '/' := by
    intro x hx
    rcases mem_joinCh '-' _ x hx with h1 | ⟨s, hs, hxs⟩
    · rw [h1]; decide
    · exact hslash s hs x hxs
  have hstem : pyStem (joinCh '-' [d, v, c :: brest, py, abi, plat] ++ ".whl".data)
      = joinCh '-' [d, v, c :: brest, py, abi, plat] :=
    pyStem_append_whl _ (joinCh_ne_nil_of_two _ _ _ _) hslashname
  have hsplit : splitOnCh '-' (joinCh '-' [d, v, c :: brest, py, abi, plat])
      = [d, v, c :: brest, py, abi, plat] :=
    splitOnCh_joinCh '-' _ (by simp) hdash
  rw [hbuild]
  simp [parseWheelFilename, hstem, hsplit, List.getD, hc]

/-- C7: for every well-formed wheel filename
`distribution-version[-build]-python-abi-platform.whl` (components free of
dashes and path separators, build tag empty or digit-initial),
`_build_wheel_filename` is a left inverse of `_parse_wheel_filename`:
`build(parse(f)) = f`. -/
theorem c7_wheel_filename_roundtrip (comps : WheelComponents)
    (hdash : ∀ s ∈ [comps.distribution, comps.version, comps.build,
        comps.python, comps.abi, comps.platform], ∀ x ∈ s, x ≠ '-')
    (hslash : ∀ s ∈ [comps.distribution, comps.version, comps.build,
        comps.python, comps.abi, comps.platform], ∀ x ∈ s, x ≠ '/')
    (hb : comps.build = [] ∨ pyIsDigit (comps.build.headD '0') = true) :
    (parseWheelFilename (buildWheelFilename comps)).map buildWheelFilename
      = .ok (buildWheelFilename comps) := by
  obtain ⟨d, v, b, py, abi, plat⟩ := comps
  match b, hb with
  | [], _ =>
    rw [parseWheelFilename_build_noBuild d v py abi plat
      (by intro s hs; apply hdash; simp at hs ⊢; tauto)
      (by intro s hs; apply hslash; simp at hs ⊢; tauto)]
    rfl
  | c :: brest, hb =>
    have hc : pyIsDigit c = true := by
      rcases hb with h1 | h2
      · exact absurd h1 (by simp)
      · simpa using h2
    rw [parseWheelFilename_build_withBuild d v py abi plat c brest hc hdash hslash]
    rfl

/-- Witness for C7 at the concrete well-formed filename
`demo-1.0.0-py3-none-any.whl`. -/
theorem c7_wheel_filename_roundtrip_witness :
    (parseWheelFilename (buildWheelFilename
        ⟨"demo".data, "1.0.0".data, [], "py3".data, "none".data, "any".data⟩)).map
      buildWheelFilename
      = .ok (buildWheelFilename
        ⟨"demo".data, "1.0.0".data, [], "py3".data, "none".data, "any".data⟩) :=
  c7_wheel_filename_roundtrip
    ⟨"demo".data, "1.0.0".data, [], "py3".data, "none".data, "any".data⟩
    (by decide) (by decide) (by decide)

/-! Models of the remaining Python primitives used by `rename.py`. -/

/-- Python `str.endswith`. -/
def pyEndsWith (s pat : Str) : Bool := pat.isSuffixOf s

/-- `pathlib.PurePath(...).suffix`: the last dot-suffix of the final
component, empty when the only dot is leading or trailing. -/
def pySuffix (s : Str) : Str :=
  let name := (splitOnCh '/' s).getLastD []
  match rfindCh '.' name with
  | none => []
  | some i => if 0 < i ∧ i < name.length - 1 then name.drop i else []

/-- Fuelled scan for `pyReplaceAll`; every step consumes at least one
character, so fuel `s.length` always suffices (the fuel only makes the
recursion structural, it never changes the result for the initial call). -/
def pyReplaceAllF (pat repl : Str) : Nat → Str → Str
  | _, [] => if pat.isPrefixOf ([] : Str) then repl else []
  | 0, s => s
  | fuel + 1, c :: rest =>
    if pat ≠ [] ∧ pat.isPrefixOf (c :: rest) then
      repl ++ pyReplaceAllF pat repl fuel ((c :: rest).drop pat.length)
    else if pat = [] then repl ++ c :: pyReplaceAllF pat repl fuel rest
    else c :: pyReplaceAllF pat repl fuel rest

/-- Python `str.replace(pat, repl)` (all occurrences, scanning left to
right without revisiting replaced text; an empty pattern inserts the
replacement at every position, as in CPython). -/
def pyReplaceAll (s pat repl : Str) : Str :=
  pyReplaceAllF pat repl s.length s

/-- Python `str.replace(pat, repl, 1)`: replace only the leftmost
occurrence. -/
def pyReplaceFirst (s pat repl : Str) : Str :=
  match s with
  | [] => if pat.isPrefixOf ([] : Str) then repl else []
  | c :: rest =>
    if pat.isPrefixOf (c :: rest) then repl ++ (c :: rest).drop pat.length
    else c :: pyReplaceFirst rest pat repl

/-- Python `str.rsplit("-", 1)`: split once at the last dash; `none`
second component when there is no dash. -/
def rsplitOnceDash (s : Str) : Str × Option Str :=
  if s.contains '-' then
    let rev := s.reverse
    (((rev.dropWhile (· ≠ '-')).tail).reverse, some ((rev.takeWhile (· ≠ '-')).reverse))
  else (s, none)

/-- ASCII regular-expression word character (`\w`): letters, digits,
underscore. -/
def isWordChar (c : Char) : Bool := c.isAlphanum || c = '_'

/-- ASCII regular-expression whitespace (`\s`). -/
def isPySpace (c : Char) : Bool :=
  c = ' ' || c = '\t' || c = '\n' || c = '\r' || c = '\x0b' || c = '\x0c'

/-- Attempt to match `\bfrom {old}(\s|\.)` at the current position:
`prev` is the character before the position (`none` at the start of the
text), used for the `\b` word-boundary test (the next character is the
word character `f`, so the boundary holds exactly when `prev` is absent
or a non-word character).  On success, returns the captured
whitespace-or-dot character and the remainder of the text after the
match. -/
def matchFromAt (old : Str) (prev : Option Char) (s : Str) : Option (Char × Str) :=
  let pat := "from ".data ++ old
  let boundaryBefore : Bool := match prev with | none => true | some p => !isWordChar p
  if boundaryBefore && pat.isPrefixOf s then
    match s.drop pat.length with
    | d :: rest2 => if isPySpace d || d = '.' then some (d, rest2) else none
    | [] => none
  else none

def subFromPatternF (old new : Str) : Nat → Option Char → Str → Str
  | _, _, [] => []
  | 0, _, s => s
  | fuel + 1, prev, c :: rest =>
    match matchFromAt old prev (c :: rest) with
    | some (d, rest2) =>
      "from ".data ++ new ++ d :: subFromPatternF old new fuel (some d) rest2
    | none => c :: subFromPatternF old new fuel (some c) rest

/-- Entry point of the first-pattern substitution (fuel `s.length`
always suffices: every step consumes at least one character). -/
def subFromPattern (old new : Str) (prev : Option Char) (s : Str) : Str :=
  subFromPatternF old new s.length prev s

/-- Whether `\bfrom {old}(\s|\.)` matches anywhere in the text (same
scan as `subFromPatternF`). -/
def hasFromMatchF (old : Str) : Nat → Option Char → Str → Bool
  | _, _, [] => false
  | 0, _, _ => false
  | fuel + 1, prev, c :: rest =>
    match matchFromAt old prev (c :: rest) with
    | some _ => true
    | none => hasFromMatchF old fuel (some c) rest

/-- Whether the first import pattern matches anywhere in `s`. -/
def hasFromMatch (old : Str) (s : Str) : Bool :=
  hasFromMatchF old s.length none s

/-- Attempt to match `\bimport {old}\b` at the current position: the
leading `\b` holds when `prev` is absent or a non-word character (the
next character is `i`); the trailing `\b` compares the last matched
character with the character following the match. -/
def matchImportAt (old : Str) (prev : Option Char) (s : Str) : Option Str :=
  let pat := "import ".data ++ old
  let boundaryBefore : Bool := match prev with | none => true | some p => !isWordChar p
  if boundaryBefore && pat.isPrefixOf s then
    let rem := s.drop pat.length
    let lastW := isWordChar (pat.getLastD ' ')
    let nextW : Bool := match rem with | [] => false | d :: _ => isWordChar d
    if lastW != nextW then some rem else none
  else none

def subImportPatternF (old new : Str) : Nat → Option Char → Str → Str
  | _, _, [] => []
  | 0, _, s => s
  | fuel + 1, prev, c :: rest =>
    match matchImportAt old prev (c :: rest) with
    | some rem =>
      "import ".data ++ new
        ++ subImportPatternF old new fuel (some (("import ".data ++ old).getLastD ' ')) rem
    | none => c :: subImportPatternF old new fuel (some c) rest

/-- Entry point of the second-pattern substitution (fuel `s.length`
always suffices: every step consumes at least one character). -/
def subImportPattern (old new : Str) (prev : Option Char) (s : Str) : Str :=
  subImportPatternF old new s.length prev s

/-- Whether `\bimport {old}\b` matches anywhere in the text (same scan
as `subImportPatternF`). -/
def hasImportMatchF (old : Str) : Nat → Option Char → Str → Bool
  | _, _, [] => false
  | 0, _, _ => false
  | fuel + 1, prev, c :: rest =>
    match matchImportAt old prev (c :: rest) with
    | some _ => true
    | none => hasImportMatchF old fuel (some c) rest

/-- Whether the second import pattern matches anywhere in `s`. -/
def hasImportMatch (old : Str) (s : Str) : Bool :=
  hasImportMatchF old s.length none s

/-- `_update_python_imports` from `spare_tire/rename.py` (lines 92-112):
apply the two import-rewriting regular expressions in order to the
decoded text. -/
def updatePythonImports (content oldName newName : Str) : Str :=
  subImportPattern oldName newName none (subFromPattern oldName newName none content)

/-- `_update_metadata` from `spare_tire/rename.py` (lines 76-89): replace
every line starting with `Name:` by `Name: {new_name}`; all other lines
are kept (the `_old_name` argument is unused in the source). -/
def updateMetadata (content oldName newName : Str) : Str :=
  joinCh '\n' ((splitOnCh '\n' content).map fun line =>
    if "Name:".data.isPrefixOf line then "Name: ".data ++ newName else line)

/-! Association-list model of the Python `dict` of output entries. -/

/-- `files[k] = v` on an insertion-ordered dict: overwrite in place or
append. -/
def upsertEntry (k v : Str) : List (Str × Str) → List (Str × Str)
  | [] => [(k, v)]
  | (k', v') :: rest => if k' = k then (k, v) :: rest else (k', v') :: upsertEntry k v rest

/-- Dict lookup. -/
def lookupEntry (k : Str) : List (Str × Str) → Option Str
  | [] => none
  | (k', v') :: rest => if k' = k then some v' else lookupEntry k rest

/-- Total lexicographic comparison of strings by code point, Python's
`<=` on `str` (used through `sorted`). -/
def strLeBool : Str → Str → Bool
  | [], _ => true
  | _ :: _, [] => false
  | a :: as, b :: bs => if a < b then true else if a = b then strLeBool as bs else false

/-- Stable insertion of an entry into a key-sorted entry list (the
element being inserted precedes any entry with an equal key it meets,
which together with `sortEntries`'s recursion makes the sort stable). -/
def insertSorted (e : Str × Str) : List (Str × Str) → List (Str × Str)
  | [] => [e]
  | f :: rest => if strLeBool e.1 f.1 then e :: f :: rest else f :: insertSorted e rest

/-- `sorted(files.items())`: the keys are unique, so Python's
lexicographic tuple sort is a stable sort by key; modelled by stable
insertion sort (any correct sort produces the same list on
distinct keys). -/
def sortEntries : List (Str × Str) → List (Str × Str)
  | [] => []
  | e :: rest => insertSorted e (sortEntries rest)

/-! RECORD hashing: `_compute_record_hash` (lines 20-25). -/

/-- The character of a decimal digit value. -/
def digitCh (n : Nat) : Char :=
  match n with
  | 0 => '0' | 1 => '1' | 2 => '2' | 3 => '3' | 4 => '4'
  | 5 => '5' | 6 => '6' | 7 => '7' | 8 => '8' | _ => '9'

/-- Fuelled digit expansion (fuel bounds the number of digits; `n + 1`
always suffices since `n / 10 < n` for `n ≥ 10`). -/
def natDigitsF : Nat → Nat → Str
  | 0, _ => []
  | fuel + 1, n => if n < 10 then [digitCh n] else natDigitsF fuel (n / 10) ++ [digitCh (n % 10)]

/-- Decimal rendering of a natural number, Python `str(int)` (used for
the RECORD size field via an f-string). -/
def natDigits (n : Nat) : Str := natDigitsF (n + 1) n

/-- The URL-safe base64 alphabet used by `base64.urlsafe_b64encode`. -/
def b64Char (i : Nat) : Char :=
  "ABCDEFGHIJKLMNOPQRSTUVWXYZabcdefghijklmnopqrstuvwxyz0123456789-_".data.getD i '?'

/-- `base64.urlsafe_b64encode(digest).rstrip(b"=")`: URL-safe base64 of a
byte list with the `=` padding stripped. -/
def b64UrlsafeNoPad : List Nat → Str
  | [] => []
  | [a] => [b64Char (a / 4), b64Char (a % 4 * 16)]
  | [a, b] => [b64Char (a / 4), b64Char (a % 4 * 16 + b / 16), b64Char (b % 16 * 4)]
  | a :: b :: c :: rest =>
    [b64Char (a / 4), b64Char (a % 4 * 16 + b / 16),
     b64Char (b % 16 * 4 + c / 64), b64Char (c % 64)] ++ b64UrlsafeNoPad rest

/-- `_compute_record_hash` from `spare_tire/rename.py` (lines 20-25),
parameterised by the abstract SHA-256 digest function `sha`:
`"sha256=" + urlsafe_b64encode(sha256(data).digest()).rstrip(b"=")`. -/
def computeRecordHash (sha : Str → List Nat) (data : Str) : Str :=
  "sha256=".data ++ b64UrlsafeNoPad (sha data)

/-! The archive rewriter: `rename_wheel` (lines 115-220) and
`rename_wheel_from_bytes` (lines 223-334) of `spare_tire/rename.py`.
Both share the same per-entry loop and RECORD regeneration code
(duplicated verbatim in the source); the shared code is factored into
`renameEntryPath`, `transformContent`, `buildFiles` and `finalizeWheel`. -/

/-- `f"{name}-{version}.dist-info"`. -/
def distInfoDirName (name ver : Str) : Str :=
  name ++ "-".data ++ ver ++ ".dist-info".data

/-- `f"{name}-{version}.data"`. -/
def dataDirName (name ver : Str) : Str :=
  name ++ "-".data ++ ver ++ ".data".data

/-- The per-entry path rewrite (lines 170-182 / 281-293): replace the
package-root, dist-info or data-directory prefix, keeping the rest of
the path; `name[len(prefix):]` is `List.drop`. -/
def renameEntryPath (oldN oldDI oldDD newN newDI newDD name : Str) : Str :=
  if (oldN ++ "/".data).isPrefixOf name || name = oldN then
    newN ++ name.drop oldN.length
  else if (oldDI ++ "/".data).isPrefixOf name || name = oldDI then
    newDI ++ name.drop oldDI.length
  else if (oldDD ++ "/".data).isPrefixOf name || name = oldDD then
    newDD ++ name.drop oldDD.length
  else name

/-- The per-entry content rewrite (lines 184-193 / 295-306): update the
METADATA entry at its new path, or rewrite imports in `.py` entries when
enabled. -/
def transformContent (newDI metaOld metaNew impOld impNew : Str) (ui : Bool)
    (newFileName content : Str) : Str :=
  if newFileName = newDI ++ "/METADATA".data then
    updateMetadata content metaOld metaNew
  else if ui && pyEndsWith newFileName ".py".data then
    updatePythonImports content impOld impNew
  else content

/-- The entry loop (lines 169-199 / 279-312): map each entry's path and
content, drop every entry whose original path ends in `/RECORD`, and
store the rest in the `files` dict in iteration order. -/
def buildFiles (oldN oldDI oldDD newN newDI newDD metaOld metaNew impOld impNew : Str)
    (ui : Bool) : List (Str × Str) → List (Str × Str) → List (Str × Str)
  | files, [] => files
  | files, (name, content) :: rest =>
    let newFileName := renameEntryPath oldN oldDI oldDD newN newDI newDD name
    let newContent := transformContent newDI metaOld metaNew impOld impNew ui
      newFileName content
    let files' := if pyEndsWith name "/RECORD".data then files
      else upsertEntry newFileName newContent files
    buildFiles oldN oldDI oldDD newN newDI newDD metaOld metaNew impOld impNew ui
      files' rest

/-- RECORD regeneration (lines 201-213 / 314-326): one line per stored
entry in sorted order, a trailing self-referencing line with empty hash
and size, then the RECORD entry is added and all entries are written to
the archive in sorted order. -/
def recordLineOf (sha : Str → List Nat) (e : Str × Str) : Str :=
  e.1 ++ ",".data ++ computeRecordHash sha e.2 ++ ",".data ++ natDigits e.2.length

/-- The final output entry list of a rename: RECORD content built from
the sorted stored entries, RECORD added to the dict, entries written
sorted. -/
def finalizeWheel (sha : Str → List Nat) (newDI : Str) (files : List (Str × Str)) :
    List (Str × Str) :=
  let recordPath := newDI ++ "/RECORD".data
  let recordLines := (sortEntries files).map (recordLineOf sha) ++ [recordPath ++ ",,".data]
  let recordContent := joinCh '\n' recordLines
  sortEntries (upsertEntry recordPath recordContent files)

/-- `rename_wheel` from `spare_tire/rename.py` (lines 115-220), modelled
on the archive's entry list: `wheelFileName` is `wheel_path.name`, the
result is the output wheel's filename together with the entries written
to it.  (The `wheel_path.exists()` filesystem check and the output
directory handling have no archive-level content and are outside the
model.) -/
def renameWheel (sha : Str → List Nat) (wheelFileName : Str)
    (entries : List (Str × Str)) (newName : Str) (ui : Bool) :
    Except Str (Str × List (Str × Str)) :=
  if pySuffix wheelFileName ≠ ".whl".data then
    .error ("Not a wheel file: ".data ++ wheelFileName)
  else
    match parseWheelFilename wheelFileName with
    | .error e => .error e
    | .ok components =>
      let oldName := components.distribution
      let oldNorm := normalizeName oldName
      let newNorm := normalizeName newName
      if oldNorm = newNorm then
        -- message as in the source, with the quotes around the names omitted
        .error ("New name ".data ++ newName ++ " is the same as old name ".data ++ oldName)
      else
        let newWheelName := buildWheelFilename { components with distribution := newNorm }
        let oldDI := distInfoDirName oldNorm components.version
        let newDI := distInfoDirName newNorm components.version
        let oldDD := dataDirName oldNorm components.version
        let newDD := dataDirName newNorm components.version
        let files := buildFiles oldNorm oldDI oldDD newNorm newDI newDD
          oldName newName oldNorm newNorm ui [] entries
        .ok (newWheelName, finalizeWheel sha newDI files)

/-- The distribution name and version that `rename_wheel_from_bytes`
derives from the first entry whose path contains `.dist-info/`
(lines 246-261): take the path's first `/`-component; lines 253-256
`rsplit` that raw component at its last dash and raise `IndexError`
(`rsplit("-", 1)[1]`) when the component contains no dash at all — a
reachable case when the `.dist-info/` text sits only in a later, nested
component.  Otherwise the values from lines 253-256 are discarded and
recomputed by lines 259-261 from the component with every `.dist-info`
occurrence removed; a missing dash there yields version `0.0.0`. -/
def deriveOldNameVersion (distInfoDir : Str) : Except Str (Str × Str) :=
  let distInfoName := (splitOnCh '/' distInfoDir).headD []
  if distInfoName.contains '-' then
    let stripped := pyReplaceAll distInfoName ".dist-info".data []
    match rsplitOnceDash stripped with
    | (before, some after) => .ok (before, after)
    | (whole, none) => .ok (whole, "0.0.0".data)
  else .error "list index out of range".data

/-- `rename_wheel_from_bytes` from `spare_tire/rename.py` (lines
223-334), modelled on the archive's entry list; the no-op case returns
the input entries themselves, and the `IndexError` of the name/version
derivation propagates. -/
def renameWheelFromBytes (sha : Str → List Nat) (entries : List (Str × Str))
    (newName : Str) (ui : Bool) : Except Str (List (Str × Str)) :=
  match (entries.map Prod.fst).filter (fun n => containsSub n ".dist-info/".data) with
  | [] => .error "Cannot find .dist-info directory in wheel".data
  | d0 :: _ =>
    match deriveOldNameVersion d0 with
    | .error e => .error e
    | .ok (oldName, version) =>
    let newNorm := normalizeName newName
    if oldName = newNorm then .ok entries
    else
      let oldDI := distInfoDirName oldName version
      let newDI := distInfoDirName newNorm version
      let oldDD := dataDirName oldName version
      let newDD := dataDirName newNorm version
      let files := buildFiles oldName oldDI oldDD newNorm newDI newDD
        oldName newName oldName newNorm ui [] entries
      .ok (finalizeWheel sha newDI files)

/-! Proxy server models: `server/stream.py`, `server/html.py`,
`server/upstream.py`. -/

/-- The normalisation used by `rewrite_wheel_filename`
(`server/stream.py` line 69): `.lower().replace("_", "-")`. -/
def streamNormName (s : Str) : Str :=
  (s.map Char.toLower).map fun c => if c = '_' then '-' else c

/-- `rewrite_wheel_filename` from `server/stream.py` (lines 55-71): split
the filename on `-`; replace the first segment with the new name only
when it equals the original name after case/underscore folding; rejoin. -/
def rewriteWheelFilename (filename originalName newName : Str) : Str :=
  let parts := splitOnCh '-' filename
  let parts' := match parts with
    | [] => []
    | p0 :: rest =>
      if streamNormName p0 = streamNormName originalName then newName :: rest
      else p0 :: rest
  joinCh '-' parts'

/-- The filename rewrite performed for each record by
`generate_project_index` (`server/html.py` line 60) when a rename rule is
present: `filename.replace(f"{rule.original}-", f"{rule.new_name}-", 1)`
— the leftmost occurrence of the literal substring `{original}-` is
replaced. -/
def listingRewriteFilename (originalName newName filename : Str) : Str :=
  pyReplaceFirst filename (originalName ++ "-".data) (newName ++ "-".data)

/-- A parsed record of an upstream project page, as produced by
`pypi_simple.ProjectPage` and consumed by
`UpstreamClient.get_project_page` (an empty-string `version` is modelled
as `none`, matching Python falsiness at line 94). -/
structure PagePackage where
  packageType : Str
  version : Option Str
  filename : Str
  url : Str
  requiresPython : Option Str
  digests : List (Str × Str)
deriving DecidableEq, Repr

/-- The package dict built per record by `get_project_page`
(lines 102-117). -/
structure PkgInfo where
  filename : Str
  url : Str
  requiresPython : Option Str
  hash : Option Str
deriving DecidableEq, Repr

/-- Hash extraction (lines 110-115): the first of
`sha256`, `sha384`, `sha512`, `md5` present in the record's digests,
formatted `algo=digest`. -/
def extractHash (digests : List (Str × Str)) : Option Str :=
  match lookupEntry "sha256".data digests with
  | some d => some ("sha256=".data ++ d)
  | none =>
    match lookupEntry "sha384".data digests with
    | some d => some ("sha384=".data ++ d)
    | none =>
      match lookupEntry "sha512".data digests with
      | some d => some ("sha512=".data ++ d)
      | none =>
        match lookupEntry "md5".data digests with
        | some d => some ("md5=".data ++ d)
        | none => none

/-- The record-processing loop of `get_project_page` (lines 83-117) on
one successful page: keep wheels, filter by the version constraint when
one applies (`specCheck v = none` models an unparseable version, which
skips the record, line 98), and build the package dict.  `specCheck` is
`some f` when a rename rule with a version spec is in force, abstracting
`Version(v) in SpecifierSet(rule.version_spec, prereleases=True)`. -/
def pageFilter (specCheck : Option (Str → Option Bool)) (pkgs : List PagePackage) :
    List PkgInfo :=
  pkgs.filterMap fun pkg =>
    if pkg.packageType ≠ "wheel".data then none
    else
      let versionOk := match specCheck, pkg.version with
        | some f, some v => (f v).getD false
        | _, _ => true
      if versionOk then
        some ⟨pkg.filename, pkg.url, pkg.requiresPython, extractHash pkg.digests⟩
      else none

/-- The HTTP outcome of one upstream listing request in
`get_project_page` (lines 71-77): a 404 response, any other
`httpx.HTTPError` (including non-2xx raised by `raise_for_status`), or a
successfully fetched page. -/
inductive HttpOutcome where
  | status404
  | httpError
  | ok (page : List PagePackage)
deriving DecidableEq

/-- `UpstreamClient.get_project_page` (`server/upstream.py`, lines
51-122), abstracted over the per-upstream HTTP outcomes (one per
configured upstream, in priority order): a 404 or any HTTP failure
advances to the next upstream; the first successfully fetched page is
processed and returned — whatever the processed result — and an empty
list is returned when every upstream has been tried. -/
def getProjectPage (specCheck : Option (Str → Option Bool)) :
    List HttpOutcome → List PkgInfo
  | [] => []
  | .status404 :: rest => getProjectPage specCheck rest
  | .httpError :: rest => getProjectPage specCheck rest
  | .ok page :: _ => pageFilter specCheck page

/-- Modelled from the claim's words, for comparison with
`getProjectPage` (refinement check for C5): return the first upstream's
successful, non-empty processed result; return an empty list only when
every upstream is exhausted without such a match. -/
def getProjectPageClaimSpec (specCheck : Option (Str → Option Bool)) :
    List HttpOutcome → List PkgInfo
  | [] => []
  | .status404 :: rest => getProjectPageClaimSpec specCheck rest
  | .httpError :: rest => getProjectPageClaimSpec specCheck rest
  | .ok page :: rest =>
    let r := pageFilter specCheck page
    if r ≠ [] then r else getProjectPageClaimSpec specCheck rest

/-! Claims C10, C2, C4, C9. -/

/-- Shared fact: when the name/version derivation from the first
`.dist-info` entry succeeds and the derived distribution name equals the
normalised new name, `rename_wheel_from_bytes` returns its input
unchanged (source lines 265-266). -/
theorem renameWheelFromBytes_noop (sha : Str → List Nat) (ents : List (Str × Str))
    (newName : Str) (ui : Bool) (d0 : Str) (drest : List Str) (o v : Str)
    (hfind : (ents.map Prod.fst).filter (fun n => containsSub n ".dist-info/".data)
      = d0 :: drest)
    (hder : deriveOldNameVersion d0 = .ok (o, v))
    (heq : o = normalizeName newName) :
    renameWheelFromBytes sha ents newName ui = .ok ents := by
  unfold renameWheelFromBytes
  rw [hfind]
  simp [hder, heq]

/-- C10 (implicit): for every wheel whose distribution name, derived
(successfully) from its first `.dist-info` directory entry, already
equals the normalised new name, `rename_wheel_from_bytes` returns the
input itself, unchanged and without error.  (When the derivation raises
`IndexError` — a dash-free first path component — no identity is
asserted: the function fails before the no-op check.) -/
theorem c10_noop_rename_returns_input (sha : Str → List Nat) (ents : List (Str × Str))
    (newName : Str) (ui : Bool) (d0 : Str) (drest : List Str) (o v : Str)
    (hfind : (ents.map Prod.fst).filter (fun n => containsSub n ".dist-info/".data)
      = d0 :: drest)
    (hder : deriveOldNameVersion d0 = .ok (o, v))
    (heq : o = normalizeName newName) :
    renameWheelFromBytes sha ents newName ui = .ok ents :=
  renameWheelFromBytes_noop sha ents newName ui d0 drest o v hfind hder heq

/-- Witness for C10: a one-entry wheel already named `icechunk`. -/
theorem c10_noop_rename_returns_input_witness :
    renameWheelFromBytes (fun _ => []) [("icechunk-1.0.0.dist-info/METADATA".data,
      "Name: icechunk".data)] "icechunk".data true
      = .ok [("icechunk-1.0.0.dist-info/METADATA".data, "Name: icechunk".data)] :=
  c10_noop_rename_returns_input (fun _ => [])
    [("icechunk-1.0.0.dist-info/METADATA".data, "Name: icechunk".data)]
    "icechunk".data true "icechunk-1.0.0.dist-info/METADATA".data []
    "icechunk".data "1.0.0".data
    (by decide) (by rfl) (by decide)

/-- Counterexample to C2 as stated: renaming a wheel to its own
normalised name through the in-memory path does not fail — it succeeds
and returns the input — so the no-op-rename rejection does not hold for
`rename_wheel_from_bytes`. -/
theorem c2_counterexample_inmemory_noop_succeeds :
    renameWheelFromBytes (fun _ => []) [("demo-1.0.dist-info/METADATA".data,
      "Name: demo".data)] "demo".data true
      = .ok [("demo-1.0.dist-info/METADATA".data, "Name: demo".data)] := by
  rfl

/-- C2 as amended: only the file-based `rename_wheel` rejects a rename to
the same normalised name with an error; the in-memory
`rename_wheel_from_bytes`, whenever its name derivation succeeds and
yields the normalised new name, instead returns its input bytes
unchanged and without error (it never raises the no-op error; on
archives whose first dist-info path component lacks a dash it raises
`IndexError` before the no-op check is ever reached). -/
theorem c2_noop_rename_amended (sha : Str → List Nat) (fname : Str)
    (ents ents' : List (Str × Str)) (newName newName' : Str) (ui ui' : Bool)
    (comps : WheelComponents)
    (hsuffix : pySuffix fname = ".whl".data)
    (hparse : parseWheelFilename fname = .ok comps)
    (hnorm : normalizeName comps.distribution = normalizeName newName)
    (d0 : Str) (drest : List Str) (o v : Str)
    (hfind : (ents'.map Prod.fst).filter (fun n => containsSub n ".dist-info/".data)
      = d0 :: drest)
    (hder : deriveOldNameVersion d0 = .ok (o, v))
    (heq : o = normalizeName newName') :
    renameWheel sha fname ents newName ui
        = .error ("New name ".data ++ newName ++ " is the same as old name ".data
          ++ comps.distribution)
      ∧ renameWheelFromBytes sha ents' newName' ui' = .ok ents' := by
  constructor
  · unfold renameWheel
    rw [if_neg (by simp [hsuffix]), hparse]
    simp [hnorm]
  · exact renameWheelFromBytes_noop sha ents' newName' ui' d0 drest o v hfind hder heq

/-- Witness for the amended C2 at concrete inputs. -/
theorem c2_noop_rename_amended_witness :
    renameWheel (fun _ => []) "demo-1.0-py3-none-any.whl".data
        [("demo/a.py".data, "x".data)] "Demo".data true
        = .error ("New name ".data ++ "Demo".data
          ++ " is the same as old name ".data ++ "demo".data)
      ∧ renameWheelFromBytes (fun _ => []) [("q-2.0.dist-info/METADATA".data,
          "Name: q".data)] "q".data false
        = .ok [("q-2.0.dist-info/METADATA".data, "Name: q".data)] :=
  c2_noop_rename_amended (fun _ => []) "demo-1.0-py3-none-any.whl".data
    [("demo/a.py".data, "x".data)]
    [("q-2.0.dist-info/METADATA".data, "Name: q".data)]
    "Demo".data "q".data true false
    ⟨"demo".data, "1.0".data, [], "py3".data, "none".data, "any".data⟩
    (by decide) (by rfl) (by decide)
    "q-2.0.dist-info/METADATA".data [] "q".data "2.0".data
    (by decide) (by rfl) (by decide)

/-- Counterexample to C4 as stated: the file-based `rename_wheel`
succeeds on an archive that has no metadata-directory entry at all — the
`NoMetadataDirectory` failure exists only on the in-memory path. -/
theorem c4_counterexample_filebased_succeeds_without_distinfo :
    (renameWheel (fun _ => [7]) "icechunk-1.0.0-py3-none-any.whl".data
      [("icechunk/a.py".data, "x = 1\n".data)] "icechunk_v1".data true).isOk = true := by
  rfl

/-- C4 as amended: only the in-memory `rename_wheel_from_bytes` fails
when no entry path contains `.dist-info/`; the file-based `rename_wheel`
derives all names from the filename and performs no such check. -/
theorem c4_no_metadata_dir_amended (sha : Str → List Nat) (ents : List (Str × Str))
    (newName : Str) (ui : Bool)
    (h : ∀ n ∈ ents.map Prod.fst, containsSub n ".dist-info/".data = false) :
    renameWheelFromBytes sha ents newName ui
      = .error "Cannot find .dist-info directory in wheel".data := by
  have hfilter : (ents.map Prod.fst).filter (fun n => containsSub n ".dist-info/".data)
      = [] := by
    rw [List.filter_eq_nil_iff]
    intro a ha
    simp [h a ha]
  unfold renameWheelFromBytes
  rw [hfilter]

/-- Witness for the amended C4: a wheel with a single non-metadata
entry. -/
theorem c4_no_metadata_dir_amended_witness :
    renameWheelFromBytes (fun _ => []) [("pkg/a.py".data, "x".data)] "pkg2".data true
      = .error "Cannot find .dist-info directory in wheel".data :=
  c4_no_metadata_dir_amended (fun _ => []) [("pkg/a.py".data, "x".data)] "pkg2".data true
    (by decide)

/-- C9 (code bug): the source's `_update_metadata` rewrites only the
`Name:` line and `rename_wheel` accepts no dependency-rename mapping, so
a declared dependency line survives unchanged even though the repo's own
test fixture (`tests/fixtures/conflicting-deps/test_conflict.py`) calls
`rename_wheel(..., rename_deps={...})` and the spec promises the
rewrite: evaluating the metadata rewrite on a metadata file with a
dependency declaration leaves the `Requires-Dist` line untouched. -/
theorem c9_dependency_line_never_rewritten :
    updateMetadata "Name: mypkg\nRequires-Dist: mydep>=1.0,<2.0".data
        "mypkg".data "mypkg_v1".data
      = "Name: mypkg_v1\nRequires-Dist: mydep>=1.0,<2.0".data := by
  rfl

/-! Claims C3 and C5. -/

theorem splitOnCh_ne_nil (c : Char) (s : Str) : splitOnCh c s ≠ [] := by
  cases s with
  | nil => simp [splitOnCh]
  | cons d rest =>
    simp only [splitOnCh]
    by_cases hd : d = c
    · simp [hd]
    · simp only [if_neg hd]
      match splitOnCh c rest with
      | [] => simp
      | p :: ps => simp

theorem joinCh_cons_head (c : Char) (d : Char) (p : Str) (ps : List Str) :
    joinCh c ((d :: p) :: ps) = d :: joinCh c (p :: ps) := by
  cases ps with
  | nil => simp [joinCh, List.intercalate]
  | cons q qs => rw [joinCh_cons_cons, joinCh_cons_cons]; rfl

theorem joinCh_splitOnCh (c : Char) (s : Str) : joinCh c (splitOnCh c s) = s := by
  induction s with
  | nil => simp [splitOnCh, joinCh, List.intercalate]
  | cons d rest ih =>
    by_cases hd : d = c
    · subst hd
      have hsp : splitOnCh d (d :: rest) = [] :: splitOnCh d rest := by
        simp [splitOnCh]
      rw [hsp]
      match hr : splitOnCh d rest with
      | [] => exact absurd hr (splitOnCh_ne_nil d rest)
      | p :: ps =>
        rw [joinCh_cons_cons, ← hr, ih]
        rfl
    · have hsp : splitOnCh c (d :: rest) =
          match splitOnCh c rest with
          | [] => [[d]]
          | p :: ps => (d :: p) :: ps := by
        simp [splitOnCh, hd]
      rw [hsp]
      match hr : splitOnCh c rest with
      | [] => exact absurd hr (splitOnCh_ne_nil c rest)
      | p :: ps =>
        rw [joinCh_cons_head, ← hr, ih]

theorem pyReplaceFirst_of_not_contains (s pat repl : Str)
    (h : containsSub s pat = false) : pyReplaceFirst s pat repl = s := by
  induction s with
  | nil =>
    simp only [containsSub] at h
    simp [pyReplaceFirst, h]
  | cons c rest ih =>
    simp only [containsSub, Bool.or_eq_false_iff] at h
    simp [pyReplaceFirst, h.1, ih h.2]

/-- Counterexample to C3 as stated: with rename rule original `none` and
new name `none2`, the upstream record filename
`icechunk-1.0.0-py3-none-any.whl` has first dash-segment `icechunk`
(not the original name) and merely contains the text `none-` elsewhere,
yet the listing rewrite used by `generate_project_index` changes its
non-distribution portion (the abi tag becomes `none2`). -/
theorem c3_counterexample_listing_substring_replace :
    (splitOnCh '-' "icechunk-1.0.0-py3-none-any.whl".data).headD [] ≠ "none".data
      ∧ listingRewriteFilename "none".data "none2".data
          "icechunk-1.0.0-py3-none-any.whl".data
        = "icechunk-1.0.0-py3-none2-any.whl".data
      ∧ (splitOnCh '-' (listingRewriteFilename "none".data "none2".data
            "icechunk-1.0.0-py3-none-any.whl".data)).tail
          ≠ (splitOnCh '-' "icechunk-1.0.0-py3-none-any.whl".data).tail := by
  refine ⟨by decide, by decide, by decide⟩

/-- C3 as amended: the proxy's listing rewrite
(`generate_project_index`) is a general leftmost substring replacement
of `{original}-`, so it leaves a filename unchanged only when that text
occurs nowhere in it; the boundary-exact rewrite is implemented by the
separate helper `rewrite_wheel_filename` (not used on the listing path),
which leaves every filename whose first dash-segment does not match the
original name (case/underscore-folded) unchanged. -/
theorem c3_listing_rewrite_amended :
    (∀ orig new f : Str, containsSub f (orig ++ "-".data) = false →
        listingRewriteFilename orig new f = f)
      ∧ (∀ orig new f : Str, ∀ p0 : Str, ∀ rest : List Str,
          splitOnCh '-' f = p0 :: rest →
          streamNormName p0 ≠ streamNormName orig →
          rewriteWheelFilename f orig new = f) := by
  constructor
  · intro orig new f h
    exact pyReplaceFirst_of_not_contains f (orig ++ "-".data) (new ++ "-".data) h
  · intro orig new f p0 rest hsplit hnorm
    unfold rewriteWheelFilename
    rw [hsplit]
    simp only [if_neg hnorm]
    rw [← hsplit]
    exact joinCh_splitOnCh '-' f

/-- Witness for the amended C3 at concrete inputs. -/
theorem c3_listing_rewrite_amended_witness :
    listingRewriteFilename "icechunk".data "icechunk_v1".data
        "numpy-2.0.0-py3-none-any.whl".data = "numpy-2.0.0-py3-none-any.whl".data
      ∧ rewriteWheelFilename "numpy-2.0.0-py3-none-any.whl".data
          "icechunk".data "icechunk_v1".data = "numpy-2.0.0-py3-none-any.whl".data :=
  ⟨c3_listing_rewrite_amended.1 "icechunk".data "icechunk_v1".data
      "numpy-2.0.0-py3-none-any.whl".data (by decide),
    c3_listing_rewrite_amended.2 "icechunk".data "icechunk_v1".data
      "numpy-2.0.0-py3-none-any.whl".data "numpy".data
      ["2.0.0".data, "py3".data, "none".data, "any.whl".data]
      (by decide) (by decide)⟩

/-- Counterexample to C5 as stated: when the first upstream responds
successfully with a page that yields no records (here: an empty page)
and the second upstream would yield a non-empty result, the code
returns the first upstream's empty result — not the first successful,
non-empty one that the claim (and `getProjectPageClaimSpec`, written
from the claim's words) prescribes. -/
theorem c5_counterexample_first_success_empty :
    getProjectPage none
        [.ok [], .ok [⟨"wheel".data, none, "f.whl".data, "u".data, none, []⟩]] = []
      ∧ getProjectPageClaimSpec none
          [.ok [], .ok [⟨"wheel".data, none, "f.whl".data, "u".data, none, []⟩]]
        = [⟨"f.whl".data, "u".data, none, none⟩] := by
  exact ⟨rfl, rfl⟩

/-- C5 as amended: `get_project_page` advances past upstreams that
return 404 or fail with an HTTP error, returns the processed record
list of the **first upstream that responds successfully** — even when
that list is empty — and returns an empty list when every upstream has
been exhausted. -/
theorem c5_upstream_iteration_amended (spec : Option (Str → Option Bool))
    (pre : List HttpOutcome) (page : List PagePackage) (post : List HttpOutcome)
    (hpre : ∀ o ∈ pre, o = .status404 ∨ o = .httpError) :
    getProjectPage spec (pre ++ .ok page :: post) = pageFilter spec page
      ∧ getProjectPage spec pre = [] := by
  induction pre with
  | nil => exact ⟨rfl, rfl⟩
  | cons o pre' ih =>
    have ho := hpre o (by simp)
    have ih' := ih fun o' ho' => hpre o' (List.mem_cons_of_mem o ho')
    rcases ho with h | h <;> subst h <;>
      exact ⟨by simpa [getProjectPage] using ih'.1, by simpa [getProjectPage] using ih'.2⟩

/-- Witness for the amended C5: two failing upstreams, then a successful
one. -/
theorem c5_upstream_iteration_amended_witness :
    getProjectPage none ([.status404, .httpError]
        ++ .ok [⟨"wheel".data, none, "f.whl".data, "u".data, none, []⟩] :: [.ok []])
      = pageFilter none [⟨"wheel".data, none, "f.whl".data, "u".data, none, []⟩]
      ∧ getProjectPage none [.status404, .httpError] = [] :=
  c5_upstream_iteration_amended none [.status404, .httpError]
    [⟨"wheel".data, none, "f.whl".data, "u".data, none, []⟩] [.ok []]
    (by intro o ho; fin_cases ho <;> simp)

/-! Claim C6. -/

theorem subFromPatternF_of_no_match (old new : Str) (fuel : Nat) :
    ∀ (prev : Option Char) (s : Str), hasFromMatchF old fuel prev s = false →
      subFromPatternF old new fuel prev s = s := by
  induction fuel with
  | zero =>
    intro prev s _
    cases s <;> rfl
  | succ fuel ih =>
    intro prev s h
    cases s with
    | nil => rfl
    | cons c rest =>
      simp only [hasFromMatchF] at h
      simp only [subFromPatternF]
      match hm : matchFromAt old prev (c :: rest) with
      | some p => rw [hm] at h; simp at h
      | none =>
        rw [hm] at h
        rw [ih (some c) rest h]

theorem subImportPatternF_of_no_match (old new : Str) (fuel : Nat) :
    ∀ (prev : Option Char) (s : Str), hasImportMatchF old fuel prev s = false →
      subImportPatternF old new fuel prev s = s := by
  induction fuel with
  | zero =>
    intro prev s _
    cases s <;> rfl
  | succ fuel ih =>
    intro prev s h
    cases s with
    | nil => rfl
    | cons c rest =>
      simp only [hasImportMatchF] at h
      simp only [subImportPatternF]
      match hm : matchImportAt old prev (c :: rest) with
      | some p => rw [hm] at h; simp at h
      | none =>
        rw [hm] at h
        rw [ih (some c) rest h]

/-- Counterexample to C6 as stated: the rewrite engine is purely
textual, so it fires inside a string literal that contains an
import-shaped phrase — the source line `x = "import icechunk"` (an
assignment whose only occurrence of the old name sits inside a string
literal, with no statement-level import construct) is modified. -/
theorem c6_counterexample_string_literal_rewritten :
    updatePythonImports "x = \"import icechunk\"\n".data
        "icechunk".data "icechunk_v1".data
      = "x = \"import icechunk_v1\"\n".data
      ∧ "x = \"import icechunk_v1\"\n".data ≠ "x = \"import icechunk\"\n".data := by
  exact ⟨by rfl, by decide⟩

/-- C6 as amended: the rewrite never fires on the old name as a
substring of a longer identifier, nor on a bare string literal equal to
the old name — any source entry in which neither textual pattern
(`\bfrom {old}(\s|\.)` or `\bimport {old}\b`) matches is preserved
byte-for-byte; but the matching is purely textual, so an import-shaped
phrase inside a string literal is rewritten. -/
theorem c6_no_match_preserved_amended (content oldName newName : Str)
    (h1 : hasFromMatch oldName content = false)
    (h2 : hasImportMatch oldName content = false) :
    updatePythonImports content oldName newName = content := by
  unfold updatePythonImports subFromPattern subImportPattern
  unfold hasFromMatch at h1
  unfold hasImportMatch at h2
  rw [subFromPatternF_of_no_match oldName newName content.length none content h1]
  exact subImportPatternF_of_no_match oldName newName content.length none content h2

/-- Witness for the amended C6: a source entry where the old name occurs
only as a substring of longer identifiers and as a bare string literal. -/
theorem c6_no_match_preserved_amended_witness :
    updatePythonImports "from icechunky import x\nimport icechunks\ns = \"icechunk\"\n".data
        "icechunk".data "icechunk_v1".data
      = "from icechunky import x\nimport icechunks\ns = \"icechunk\"\n".data :=
  c6_no_match_preserved_amended
    "from icechunky import x\nimport icechunks\ns = \"icechunk\"\n".data
    "icechunk".data "icechunk_v1".data (by decide) (by decide)


/-! Infrastructure for the RECORD manifest claim (C1) and the path
claim (C8): properties of `strLeBool`, `insertSorted`/`sortEntries`,
`upsertEntry`/`lookupEntry` and `buildFiles`. -/

theorem strLeBool_total (a b : Str) : strLeBool a b = true ∨ strLeBool b a = true := by
  induction a generalizing b with
  | nil => left; rfl
  | cons x xs ih =>
    cases b with
    | nil => right; rfl
    | cons y ys =>
      rcases lt_trichotomy x y with h | h | h
      · left; simp [strLeBool, h]
      · subst h
        rcases ih ys with h2 | h2
        · left; simp [strLeBool, h2]
        · right; simp [strLeBool, h2]
      · right; simp [strLeBool, h]

theorem strLeBool_trans (a b c : Str) (h1 : strLeBool a b = true)
    (h2 : strLeBool b c = true) : strLeBool a c = true := by
  induction a generalizing b c with
  | nil => rfl
  | cons x xs ih =>
    cases b with
    | nil => simp [strLeBool] at h1
    | cons y ys =>
      cases c with
      | nil => simp [strLeBool] at h2
      | cons z zs =>
        simp only [strLeBool] at h1 h2 ⊢
        by_cases hxy : x < y
        · by_cases hyz : y < z
          · simp [lt_trans hxy hyz]
          · by_cases heq : y = z
            · subst heq; simp [hxy]
            · simp [hyz, heq] at h2
        · by_cases hxyeq : x = y
          · subst hxyeq
            by_cases hyz : x < z
            · simp [hyz]
            · by_cases heq : x = z
              · subst heq
                simp only [lt_irrefl, if_neg, if_pos, reduceIte] at h1 h2 ⊢
                exact ih ys zs h1 h2
              · simp [hyz, heq] at h2
          · simp [hxy, hxyeq] at h1

theorem mem_insertSorted (e x : Str × Str) (l : List (Str × Str)) :
    x ∈ insertSorted e l ↔ x = e ∨ x ∈ l := by
  induction l with
  | nil => simp [insertSorted]
  | cons f rest ih =>
    simp only [insertSorted]
    by_cases h : strLeBool e.1 f.1 = true
    · rw [if_pos h]
      simp only [List.mem_cons]
    · rw [if_neg h]
      simp only [List.mem_cons, ih]
      tauto

theorem insertSorted_perm (e : Str × Str) (l : List (Str × Str)) :
    (insertSorted e l).Perm (e :: l) := by
  induction l with
  | nil => simp [insertSorted]
  | cons f rest ih =>
    simp only [insertSorted]
    by_cases h : strLeBool e.1 f.1 = true
    · rw [if_pos h]
    · rw [if_neg h]
      exact (List.Perm.cons f ih).trans (List.Perm.swap e f rest)

theorem sortEntries_perm (l : List (Str × Str)) : (sortEntries l).Perm l := by
  induction l with
  | nil => simp [sortEntries]
  | cons e rest ih =>
    exact (insertSorted_perm e (sortEntries rest)).trans (List.Perm.cons e ih)

theorem pairwise_insertSorted (e : Str × Str) (l : List (Str × Str))
    (h : List.Pairwise (fun a b => strLeBool a.1 b.1 = true) l) :
    List.Pairwise (fun a b => strLeBool a.1 b.1 = true) (insertSorted e l) := by
  induction l with
  | nil => simp [insertSorted]
  | cons f rest ih =>
    rcases List.pairwise_cons.1 h with ⟨hf, hrest⟩
    simp only [insertSorted]
    by_cases hef : strLeBool e.1 f.1 = true
    · rw [if_pos hef]
      refine List.pairwise_cons.2 ⟨?_, h⟩
      intro x hx
      rcases List.mem_cons.1 hx with h1 | h2
      · subst h1; exact hef
      · exact strLeBool_trans e.1 f.1 x.1 hef (hf x h2)
    · rw [if_neg hef]
      refine List.pairwise_cons.2 ⟨?_, ih hrest⟩
      intro x hx
      rcases (mem_insertSorted e x rest).1 hx with h1 | h2
      · rw [h1]
        rcases strLeBool_total e.1 f.1 with h3 | h3
        · exact absurd h3 hef
        · exact h3
      · exact hf x h2

theorem sortEntries_pairwise (l : List (Str × Str)) :
    List.Pairwise (fun a b => strLeBool a.1 b.1 = true) (sortEntries l) := by
  induction l with
  | nil => simp [sortEntries]
  | cons e rest ih => exact pairwise_insertSorted e (sortEntries rest) ih

theorem upsertEntry_of_not_mem (k : Str) (v : Str) (l : List (Str × Str))
    (h : k ∉ l.map Prod.fst) : upsertEntry k v l = l ++ [(k, v)] := by
  induction l with
  | nil => rfl
  | cons f rest ih =>
    simp only [List.map_cons, List.mem_cons] at h
    push_neg at h
    simp only [upsertEntry, if_neg (Ne.symm h.1)]
    rw [ih h.2]
    rfl

theorem keys_upsertEntry (k v : Str) (l : List (Str × Str)) :
    ∀ x ∈ (upsertEntry k v l).map Prod.fst, x = k ∨ x ∈ l.map Prod.fst := by
  induction l with
  | nil =>
    intro x hx
    simp [upsertEntry] at hx
    exact Or.inl hx
  | cons f rest ih =>
    intro x hx
    simp only [upsertEntry] at hx
    by_cases hf : f.1 = k
    · rw [if_pos hf] at hx
      simp only [List.map_cons, List.mem_cons] at hx
      rcases hx with h1 | h2
      · exact Or.inl h1
      · exact Or.inr (by simp [h2])
    · rw [if_neg hf] at hx
      simp only [List.map_cons, List.mem_cons] at hx
      rcases hx with h1 | h2
      · exact Or.inr (by simp [h1])
      · rcases ih x h2 with h3 | h4
        · exact Or.inl h3
        · exact Or.inr (by simp [h4])

theorem mem_keys_upsertEntry (k v : Str) (l : List (Str × Str)) :
    k ∈ (upsertEntry k v l).map Prod.fst := by
  induction l with
  | nil => simp [upsertEntry]
  | cons f rest ih =>
    simp only [upsertEntry]
    by_cases h : f.1 = k
    · rw [if_pos h]; simp
    · rw [if_neg h]
      simp only [List.map_cons, List.mem_cons]
      exact Or.inr ih

theorem mem_keys_upsertEntry_of_mem (k v x : Str) (l : List (Str × Str))
    (h : x ∈ l.map Prod.fst) : x ∈ (upsertEntry k v l).map Prod.fst := by
  induction l with
  | nil => simp at h
  | cons f rest ih =>
    simp only [List.map_cons, List.mem_cons] at h
    simp only [upsertEntry]
    by_cases hf : f.1 = k
    · rw [if_pos hf]
      simp only [List.map_cons, List.mem_cons]
      rcases h with h1 | h2
      · left; rw [h1, hf]
      · right; exact h2
    · rw [if_neg hf]
      simp only [List.map_cons, List.mem_cons]
      rcases h with h1 | h2
      · left; exact h1
      · right; exact ih h2

theorem nodup_keys_upsertEntry (k v : Str) (l : List (Str × Str))
    (h : (l.map Prod.fst).Nodup) : ((upsertEntry k v l).map Prod.fst).Nodup := by
  induction l with
  | nil => simp [upsertEntry]
  | cons f rest ih =>
    simp only [List.map_cons, List.nodup_cons] at h
    simp only [upsertEntry]
    by_cases hf : f.1 = k
    · rw [if_pos hf]
      simp only [List.map_cons, List.nodup_cons]
      exact ⟨by rw [← hf]; exact h.1, h.2⟩
    · rw [if_neg hf]
      simp only [List.map_cons, List.nodup_cons]
      refine ⟨?_, ih h.2⟩
      intro hmem
      rcases keys_upsertEntry k v rest f.1 hmem with h1 | h2
      · exact hf h1
      · exact h.1 h2

theorem lookupEntry_eq_some_of_mem (k v : Str) (l : List (Str × Str))
    (hnodup : (l.map Prod.fst).Nodup) (hmem : (k, v) ∈ l) :
    lookupEntry k l = some v := by
  induction l with
  | nil => simp at hmem
  | cons f rest ih =>
    simp only [List.map_cons, List.nodup_cons] at hnodup
    rcases List.mem_cons.1 hmem with h1 | h2
    · rw [← h1]
      simp [lookupEntry]
    · have hf : f.1 ≠ k := by
        intro heq
        exact hnodup.1 (by rw [heq]; exact List.mem_map.2 ⟨(k, v), h2, rfl⟩)
      simp only [lookupEntry, if_neg hf]
      exact ih hnodup.2 h2

theorem buildFiles_keys_nodup (oldN oldDI oldDD newN newDI newDD mo mn io iN : Str)
    (ui : Bool) (entries : List (Str × Str)) :
    ∀ files : List (Str × Str), (files.map Prod.fst).Nodup →
      ((buildFiles oldN oldDI oldDD newN newDI newDD mo mn io iN ui
        files entries).map Prod.fst).Nodup := by
  induction entries with
  | nil =>
    intro files h
    exact h
  | cons e rest ih =>
    intro files h
    rcases e with ⟨name, content⟩
    simp only [buildFiles]
    by_cases hrec : pyEndsWith name "/RECORD".data = true
    · rw [if_pos hrec]
      exact ih files h
    · rw [if_neg hrec]
      exact ih _ (nodup_keys_upsertEntry _ _ files h)

theorem buildFiles_keys_mono (oldN oldDI oldDD newN newDI newDD mo mn io iN : Str)
    (ui : Bool) (entries : List (Str × Str)) :
    ∀ files : List (Str × Str), ∀ x ∈ files.map Prod.fst,
      x ∈ (buildFiles oldN oldDI oldDD newN newDI newDD mo mn io iN ui
        files entries).map Prod.fst := by
  induction entries with
  | nil =>
    intro files x hx
    exact hx
  | cons e rest ih =>
    intro files x hx
    rcases e with ⟨name, content⟩
    simp only [buildFiles]
    by_cases hrec : pyEndsWith name "/RECORD".data = true
    · rw [if_pos hrec]
      exact ih files x hx
    · rw [if_neg hrec]
      exact ih _ x (mem_keys_upsertEntry_of_mem _ _ x files hx)

theorem buildFiles_keys_prop (P : Str → Prop)
    (oldN oldDI oldDD newN newDI newDD mo mn io iN : Str) (ui : Bool)
    (entries : List (Str × Str))
    (hentries : ∀ e ∈ entries, pyEndsWith e.1 "/RECORD".data = false →
      P (renameEntryPath oldN oldDI oldDD newN newDI newDD e.1)) :
    ∀ files : List (Str × Str), (∀ k ∈ files.map Prod.fst, P k) →
      ∀ k ∈ (buildFiles oldN oldDI oldDD newN newDI newDD mo mn io iN ui
        files entries).map Prod.fst, P k := by
  induction entries with
  | nil =>
    intro files hfiles k hk
    exact hfiles k hk
  | cons e rest ih =>
    intro files hfiles k hk
    rcases e with ⟨name, content⟩
    have hrest : ∀ e ∈ rest, pyEndsWith e.1 "/RECORD".data = false →
        P (renameEntryPath oldN oldDI oldDD newN newDI newDD e.1) :=
      fun e he => hentries e (List.mem_cons_of_mem _ he)
    simp only [buildFiles] at hk
    by_cases hrec : pyEndsWith name "/RECORD".data = true
    · rw [if_pos hrec] at hk
      exact ih hrest files hfiles k hk
    · rw [if_neg hrec] at hk
      refine ih hrest _ ?_ k hk
      intro k' hk'
      rcases keys_upsertEntry _ _ files k' hk' with h1 | h2
      · rw [h1]
        exact hentries (name, content) (by simp) (by simpa using hrec)
      · exact hfiles k' h2

theorem buildFiles_maps_entry (oldN oldDI oldDD newN newDI newDD mo mn io iN : Str)
    (ui : Bool) (entries : List (Str × Str)) :
    ∀ files : List (Str × Str), ∀ e ∈ entries, pyEndsWith e.1 "/RECORD".data = false →
      renameEntryPath oldN oldDI oldDD newN newDI newDD e.1
        ∈ (buildFiles oldN oldDI oldDD newN newDI newDD mo mn io iN ui
            files entries).map Prod.fst := by
  induction entries with
  | nil =>
    intro files e he
    simp at he
  | cons f rest ih =>
    intro files e he hrec
    rcases List.mem_cons.1 he with h1 | h2
    · subst h1
      rcases e with ⟨name, content⟩
      simp only [buildFiles]
      rw [if_neg (by simpa using hrec)]
      exact buildFiles_keys_mono oldN oldDI oldDD newN newDI newDD mo mn io iN ui rest _ _
        (mem_keys_upsertEntry _ _ files)
    · rcases f with ⟨name, content⟩
      simp only [buildFiles]
      by_cases hrec2 : pyEndsWith name "/RECORD".data = true
      · rw [if_pos hrec2]
        exact ih files e h2 hrec
      · rw [if_neg hrec2]
        exact ih _ e h2 hrec

/-- The path segment of a RECORD line: everything before the first
comma. -/
def linePath (l : Str) : Str := l.takeWhile (fun c => c != ',')

theorem takeWhile_append_of_false (p : Char → Bool) (a : Str) (b : Char) (t : Str)
    (ha : ∀ x ∈ a, p x = true) (hb : p b = false) :
    (a ++ b :: t).takeWhile p = a := by
  induction a with
  | nil => simp [List.takeWhile, hb]
  | cons x xs ih =>
    have hx : p x = true := ha x (by simp)
    simp only [List.cons_append, List.takeWhile_cons, hx]
    rw [ih fun y hy => ha y (by simp [hy])]
    simp

theorem linePath_recordLineOf (sha : Str → List Nat) (e : Str × Str)
    (h : ',' ∉ e.1) : linePath (recordLineOf sha e) = e.1 := by
  have hform : recordLineOf sha e
      = e.1 ++ ',' :: (computeRecordHash sha e.2 ++ ',' :: natDigits e.2.length) := by
    simp [recordLineOf]
  rw [hform]
  exact takeWhile_append_of_false _ e.1 ',' _
    (fun x hx => by
      simp only [bne_iff_ne, ne_eq, decide_eq_true_eq]
      intro heq
      exact h (heq ▸ hx))
    (by simp)

theorem recordLineOf_inj_key (sha : Str → List Nat) (e f : Str × Str)
    (he : ',' ∉ e.1) (hf : ',' ∉ f.1)
    (heq : recordLineOf sha e = recordLineOf sha f) : e.1 = f.1 := by
  rw [← linePath_recordLineOf sha e he, heq, linePath_recordLineOf sha f hf]

theorem entry_value_unique (l : List (Str × Str)) (hnodup : (l.map Prod.fst).Nodup)
    (k a b : Str) (ha : (k, a) ∈ l) (hb : (k, b) ∈ l) : a = b := by
  have h1 := lookupEntry_eq_some_of_mem k a l hnodup ha
  have h2 := lookupEntry_eq_some_of_mem k b l hnodup hb
  rw [h1] at h2
  exact Option.some_inj.1 h2

/-- The manifest property claimed for a renamed wheel's output entry set
`out` (C1): the RECORD entry at `{newDI}/RECORD` is the newline-join of
a list of body lines followed by the single self-referencing line with
empty digest and size; for every output entry except RECORD itself
there is exactly one body line `path,sha256=<urlsafe-unpadded-b64 of the
digest of the content>,<byte length>`; every body line is of that form
for some output entry; and the body lines are in lexicographic order of
their path field. -/
def RecordSpec (sha : Str → List Nat) (newDI : Str) (out : List (Str × Str)) : Prop :=
  ∃ body : List Str,
    lookupEntry (newDI ++ "/RECORD".data) out
        = some (joinCh '\n' (body ++ [(newDI ++ "/RECORD".data) ++ ",,".data]))
    ∧ (∀ p c : Str, (p, c) ∈ out → p ≠ newDI ++ "/RECORD".data →
        body.count (p ++ ",".data ++ computeRecordHash sha c ++ ",".data
          ++ natDigits c.length) = 1)
    ∧ (∀ l ∈ body, ∃ p c : Str, (p, c) ∈ out ∧ p ≠ newDI ++ "/RECORD".data
        ∧ l = p ++ ",".data ++ computeRecordHash sha c ++ ",".data ++ natDigits c.length)
    ∧ List.Pairwise (fun l1 l2 => strLeBool (linePath l1) (linePath l2) = true) body

theorem countP_eq_one_of_mem_nodup (l : List (Str × Str)) (hnodup : l.Nodup)
    (e : Str × Str) (he : e ∈ l) : List.countP (fun x => x == e) l = 1 := by
  induction l with
  | nil => simp at he
  | cons f rest ih =>
    rcases List.nodup_cons.1 hnodup with ⟨hf, hrest⟩
    rcases List.mem_cons.1 he with h1 | h2
    · rw [← h1] at hf
      rw [List.countP_cons]
      have hzero : List.countP (fun x => x == e) rest = 0 := by
        rw [List.countP_eq_zero]
        intro a ha
        simp only [beq_iff_eq]
        intro heq
        exact hf (heq ▸ ha)
      rw [hzero, h1]
      simp
    · rw [List.countP_cons]
      have hne : (f == e) = false := by
        simp only [beq_eq_false_iff_ne, ne_eq]
        intro heq
        exact hf (heq ▸ h2)
      rw [ih hrest h2, hne]
      simp

theorem finalizeWheel_record_spec (sha : Str → List Nat) (newDI : Str)
    (files : List (Str × Str))
    (hnodup : (files.map Prod.fst).Nodup)
    (hnorec : ∀ k ∈ files.map Prod.fst, pyEndsWith k "/RECORD".data = false)
    (hcomma : ∀ k ∈ files.map Prod.fst, ',' ∉ k) :
    RecordSpec sha newDI (finalizeWheel sha newDI files) := by
  have hrp_ends : pyEndsWith (newDI ++ "/RECORD".data) "/RECORD".data = true :=
    List.isSuffixOf_iff_suffix.2 (List.suffix_append newDI "/RECORD".data)
  have hrp_not : newDI ++ "/RECORD".data ∉ files.map Prod.fst := by
    intro hmem
    rw [hnorec _ hmem] at hrp_ends
    exact Bool.false_ne_true hrp_ends
  have hupsert : upsertEntry (newDI ++ "/RECORD".data)
      (joinCh '\n' ((sortEntries files).map (recordLineOf sha)
        ++ [(newDI ++ "/RECORD".data) ++ ",,".data])) files
      = files ++ [((newDI ++ "/RECORD".data),
          joinCh '\n' ((sortEntries files).map (recordLineOf sha)
            ++ [(newDI ++ "/RECORD".data) ++ ",,".data]))] :=
    upsertEntry_of_not_mem _ _ files hrp_not
  have hout : finalizeWheel sha newDI files
      = sortEntries (files ++ [((newDI ++ "/RECORD".data),
          joinCh '\n' ((sortEntries files).map (recordLineOf sha)
            ++ [(newDI ++ "/RECORD".data) ++ ",,".data]))]) := by
    simp only [finalizeWheel]
    rw [hupsert]
  have hperm : (finalizeWheel sha newDI files).Perm
      (files ++ [((newDI ++ "/RECORD".data),
        joinCh '\n' ((sortEntries files).map (recordLineOf sha)
          ++ [(newDI ++ "/RECORD".data) ++ ",,".data]))]) := by
    rw [hout]
    exact sortEntries_perm _
  have happnodup : ((files ++ [((newDI ++ "/RECORD".data),
      joinCh '\n' ((sortEntries files).map (recordLineOf sha)
        ++ [(newDI ++ "/RECORD".data) ++ ",,".data]))]).map Prod.fst).Nodup := by
    rw [List.map_append]
    refine List.Nodup.append hnodup (by simp) ?_
    intro x hx hy
    simp only [List.map_cons, List.map_nil, List.mem_singleton] at hy
    rw [hy] at hx
    exact hrp_not hx
  have houtnodup : ((finalizeWheel sha newDI files).map Prod.fst).Nodup :=
    ((hperm.map Prod.fst).nodup_iff).2 happnodup
  refine ⟨(sortEntries files).map (recordLineOf sha), ?_, ?_, ?_, ?_⟩
  · refine lookupEntry_eq_some_of_mem _ _ _ houtnodup ?_
    rw [hperm.mem_iff]
    simp
  · intro p c hmem hne
    have hmem2 : (p, c) ∈ files := by
      have := hperm.mem_iff.1 hmem
      rcases List.mem_append.1 this with h1 | h2
      · exact h1
      · simp only [List.mem_singleton, Prod.mk.injEq] at h2
        exact absurd h2.1 hne
    have hline : p ++ ",".data ++ computeRecordHash sha c ++ ",".data
        ++ natDigits c.length = recordLineOf sha (p, c) := by
      simp [recordLineOf]
    rw [hline]
    rw [List.count_eq_countP, List.countP_map]
    have hcongr : List.countP
        (fun x => recordLineOf sha x == recordLineOf sha (p, c)) (sortEntries files)
        = List.countP (fun x => x == (p, c)) (sortEntries files) := by
      refine List.countP_congr ?_
      intro x hx
      have hxf : x ∈ files := ((sortEntries_perm files).mem_iff).1 hx
      simp only [beq_iff_eq, Function.comp_apply]
      constructor
      · intro heq
        have hkey : x.1 = p :=
          recordLineOf_inj_key sha x (p, c)
            (hcomma x.1 (List.mem_map.2 ⟨x, hxf, rfl⟩))
            (hcomma p (List.mem_map.2 ⟨(p, c), hmem2, rfl⟩)) heq
        have hval : x.2 = c := by
          refine entry_value_unique files hnodup p x.2 c ?_ hmem2
          rw [← hkey]
          exact hxf
        rw [Prod.ext_iff]
        exact ⟨hkey, hval⟩
      · intro heq
        rw [heq]
    have hstep : List.countP
        ((fun x => x == recordLineOf sha (p, c)) ∘ recordLineOf sha) (sortEntries files)
        = List.countP (fun x => x == (p, c)) (sortEntries files) := by
      rw [← hcongr]
      rfl
    rw [hstep, (sortEntries_perm files).countP_eq]
    exact countP_eq_one_of_mem_nodup files (hnodup.of_map) (p, c) hmem2
  · intro l hl
    rcases List.mem_map.1 hl with ⟨e, he, hle⟩
    have hef : e ∈ files := ((sortEntries_perm files).mem_iff).1 he
    refine ⟨e.1, e.2, ?_, ?_, ?_⟩
    · rw [hperm.mem_iff]
      exact List.mem_append.2 (Or.inl hef)
    · intro heq
      have hkmem : e.1 ∈ files.map Prod.fst := List.mem_map.2 ⟨e, hef, rfl⟩
      rw [heq] at hkmem
      exact hrp_not hkmem
    · rw [← hle]
      simp [recordLineOf]
  · have hpair := sortEntries_pairwise files
    rw [List.pairwise_map]
    refine List.Pairwise.imp_of_mem ?_ hpair
    intro a b ha hb hab
    have haf : a ∈ files := ((sortEntries_perm files).mem_iff).1 ha
    have hbf : b ∈ files := ((sortEntries_perm files).mem_iff).1 hb
    rw [linePath_recordLineOf sha a (hcomma a.1 (List.mem_map.2 ⟨a, haf, rfl⟩)),
      linePath_recordLineOf sha b (hcomma b.1 (List.mem_map.2 ⟨b, hbf, rfl⟩))]
    exact hab

theorem record_suffix_transfer (a s : Str) (ha : '/' ∉ a)
    (h : "/RECORD".data <:+ a ++ s) : "/RECORD".data <:+ s := by
  rcases h with ⟨t, ht⟩
  have hta : t <+: a ++ s := ⟨"/RECORD".data, ht⟩
  have haa : a <+: a ++ s := List.prefix_append a s
  rcases List.prefix_or_prefix_of_prefix hta haa with h1 | h2
  · rcases h1 with ⟨a', rfl⟩
    rw [List.append_assoc] at ht
    have hu : "/RECORD".data = a' ++ s := List.append_cancel_left ht
    match a', hu with
    | [], hu => exact ⟨[], by simpa using hu⟩
    | x :: a'', hu =>
      have hx : x = '/' := by
        have := hu
        simp only [List.cons_append] at this
        exact (List.cons.injEq _ _ _ _ ▸ this).1.symm
      exfalso
      apply ha
      rw [← hx]
      simp
  · rcases h2 with ⟨t', rfl⟩
    rw [List.append_assoc] at ht
    have := List.append_cancel_left ht
    exact ⟨t', this⟩

theorem renameEntryPath_cases (oldN oldDI oldDD newN newDI newDD name : Str) :
    (∃ pre suf : Str, (pre = newN ∨ pre = newDI ∨ pre = newDD)
      ∧ renameEntryPath oldN oldDI oldDD newN newDI newDD name = pre ++ suf
      ∧ suf <:+ name)
    ∨ renameEntryPath oldN oldDI oldDD newN newDI newDD name = name := by
  unfold renameEntryPath
  by_cases h1 : ((oldN ++ "/".data).isPrefixOf name || name = oldN) = true
  · rw [if_pos h1]
    exact Or.inl ⟨newN, name.drop oldN.length, Or.inl rfl, rfl, List.drop_suffix _ _⟩
  · rw [if_neg h1]
    by_cases h2 : ((oldDI ++ "/".data).isPrefixOf name || name = oldDI) = true
    · rw [if_pos h2]
      exact Or.inl ⟨newDI, name.drop oldDI.length, Or.inr (Or.inl rfl), rfl,
        List.drop_suffix _ _⟩
    · rw [if_neg h2]
      by_cases h3 : ((oldDD ++ "/".data).isPrefixOf name || name = oldDD) = true
      · rw [if_pos h3]
        exact Or.inl ⟨newDD, name.drop oldDD.length, Or.inr (Or.inr rfl), rfl,
          List.drop_suffix _ _⟩
      · rw [if_neg h3]
        exact Or.inr rfl

theorem renameEntryPath_not_ends_record (oldN oldDI oldDD newN newDI newDD name : Str)
    (hN : '/' ∉ newN) (hDI : '/' ∉ newDI) (hDD : '/' ∉ newDD)
    (hname : pyEndsWith name "/RECORD".data = false) :
    pyEndsWith (renameEntryPath oldN oldDI oldDD newN newDI newDD name)
      "/RECORD".data = false := by
  rcases renameEntryPath_cases oldN oldDI oldDD newN newDI newDD name with
    ⟨pre, suf, hpre, heq, hsuf⟩ | heq
  · rw [heq]
    rcases Bool.eq_false_or_eq_true (pyEndsWith (pre ++ suf) "/RECORD".data) with hb | hb
    swap
    · exact hb
    · exfalso
      have hpre_slash : '/' ∉ pre := by
        rcases hpre with h | h | h <;> rw [h] <;> assumption
      have h1 : "/RECORD".data <:+ suf :=
        record_suffix_transfer pre suf hpre_slash (List.isSuffixOf_iff_suffix.1 hb)
      have h2 : pyEndsWith name "/RECORD".data = true :=
        List.isSuffixOf_iff_suffix.2 (h1.trans hsuf)
      rw [hname] at h2
      exact Bool.false_ne_true h2
  · rw [heq]
    exact hname

theorem mem_renameEntryPath (oldN oldDI oldDD newN newDI newDD name : Str) (x : Char)
    (hx : x ∈ renameEntryPath oldN oldDI oldDD newN newDI newDD name) :
    x ∈ newN ∨ x ∈ newDI ∨ x ∈ newDD ∨ x ∈ name := by
  rcases renameEntryPath_cases oldN oldDI oldDD newN newDI newDD name with
    ⟨pre, suf, hpre, heq, hsuf⟩ | heq
  · rw [heq] at hx
    rcases List.mem_append.1 hx with h1 | h2
    · rcases hpre with h | h | h
      · exact Or.inl (h ▸ h1)
      · exact Or.inr (Or.inl (h ▸ h1))
      · exact Or.inr (Or.inr (Or.inl (h ▸ h1)))
    · exact Or.inr (Or.inr (Or.inr (hsuf.subset h2)))
  · rw [heq] at hx
    exact Or.inr (Or.inr (Or.inr hx))

theorem not_mem_distInfoDirName (ch : Char) (nm ver : Str)
    (hdash : ch ≠ '-') (hdi : ch ∉ ".dist-info".data)
    (hN : ch ∉ nm) (hv : ch ∉ ver) : ch ∉ distInfoDirName nm ver := by
  intro hmem
  simp only [distInfoDirName, List.mem_append] at hmem
  rcases hmem with ((h1 | h2) | h3) | h4
  · exact hN h1
  · simp at h2
    exact hdash h2
  · exact hv h3
  · exact hdi h4

theorem not_mem_dataDirName (ch : Char) (nm ver : Str)
    (hdash : ch ≠ '-') (hda : ch ∉ ".data".data)
    (hN : ch ∉ nm) (hv : ch ∉ ver) : ch ∉ dataDirName nm ver := by
  intro hmem
  simp only [dataDirName, List.mem_append] at hmem
  rcases hmem with ((h1 | h2) | h3) | h4
  · exact hN h1
  · simp at h2
    exact hdash h2
  · exact hv h3
  · exact hda h4

theorem buildFiles_finalize_spec (sha : Str → List Nat)
    (oldN oldDI oldDD newN ver mo mn io iN : Str) (ui : Bool)
    (entries : List (Str × Str))
    (hents : ∀ e ∈ entries, ',' ∉ e.1)
    (hNc : ',' ∉ newN) (hNs : '/' ∉ newN)
    (hvc : ',' ∉ ver) (hvs : '/' ∉ ver) :
    RecordSpec sha (distInfoDirName newN ver)
      (finalizeWheel sha (distInfoDirName newN ver)
        (buildFiles oldN oldDI oldDD newN (distInfoDirName newN ver)
          (dataDirName newN ver) mo mn io iN ui [] entries)) := by
  have hDIs : '/' ∉ distInfoDirName newN ver :=
    not_mem_distInfoDirName '/' newN ver (by decide) (by decide) hNs hvs
  have hDDs : '/' ∉ dataDirName newN ver :=
    not_mem_dataDirName '/' newN ver (by decide) (by decide) hNs hvs
  apply finalizeWheel_record_spec
  · exact buildFiles_keys_nodup oldN oldDI oldDD newN (distInfoDirName newN ver)
      (dataDirName newN ver) mo mn io iN ui entries [] (by simp)
  · refine buildFiles_keys_prop (fun k => pyEndsWith k "/RECORD".data = false)
      oldN oldDI oldDD newN (distInfoDirName newN ver) (dataDirName newN ver)
      mo mn io iN ui entries ?_ [] (by simp)
    intro e _ hrec
    exact renameEntryPath_not_ends_record oldN oldDI oldDD newN
      (distInfoDirName newN ver) (dataDirName newN ver) e.1 hNs hDIs hDDs hrec
  · refine buildFiles_keys_prop (fun k => ',' ∉ k)
      oldN oldDI oldDD newN (distInfoDirName newN ver) (dataDirName newN ver)
      mo mn io iN ui entries ?_ [] (by simp)
    intro e he _
    intro hmem
    rcases mem_renameEntryPath oldN oldDI oldDD newN (distInfoDirName newN ver)
      (dataDirName newN ver) e.1 ',' hmem with h | h | h | h
    · exact hNc h
    · exact not_mem_distInfoDirName ',' newN ver (by decide) (by decide) hNc hvc h
    · exact not_mem_dataDirName ',' newN ver (by decide) (by decide) hNc hvc h
    · exact hents e he h

/-- Shape of a successful file-based rename: with a `.whl` suffix, a
parsable filename and distinct normalised names, `rename_wheel` returns
the rebuilt filename and the finalised entry set. -/
theorem renameWheel_ok_shape (sha : Str → List Nat) (fname : Str)
    (entries : List (Str × Str)) (newName : Str) (ui : Bool)
    (comps : WheelComponents)
    (hsuf : pySuffix fname = ".whl".data)
    (hparse : parseWheelFilename fname = .ok comps)
    (hneq : normalizeName comps.distribution ≠ normalizeName newName) :
    renameWheel sha fname entries newName ui
      = .ok (buildWheelFilename { comps with distribution := normalizeName newName },
          finalizeWheel sha (distInfoDirName (normalizeName newName) comps.version)
            (buildFiles (normalizeName comps.distribution)
              (distInfoDirName (normalizeName comps.distribution) comps.version)
              (dataDirName (normalizeName comps.distribution) comps.version)
              (normalizeName newName)
              (distInfoDirName (normalizeName newName) comps.version)
              (dataDirName (normalizeName newName) comps.version)
              comps.distribution newName
              (normalizeName comps.distribution) (normalizeName newName)
              ui [] entries)) := by
  unfold renameWheel
  rw [if_neg (by simp [hsuf]), hparse]
  simp only [if_neg hneq]

/-- Shape of a successful non-no-op in-memory rename, under the
hypothesis that the name/version derivation from the first `.dist-info`
entry succeeds (when it raises `IndexError`, the function errors out and
this shape does not apply). -/
theorem renameWheelFromBytes_ok_shape (sha : Str → List Nat)
    (entries : List (Str × Str)) (newName : Str) (ui : Bool)
    (d0 : Str) (drest : List Str) (o v : Str)
    (hfind : (entries.map Prod.fst).filter
      (fun n => containsSub n ".dist-info/".data) = d0 :: drest)
    (hder : deriveOldNameVersion d0 = .ok (o, v))
    (hneq : o ≠ normalizeName newName) :
    renameWheelFromBytes sha entries newName ui
      = .ok (finalizeWheel sha
          (distInfoDirName (normalizeName newName) v)
          (buildFiles o
            (distInfoDirName o v)
            (dataDirName o v)
            (normalizeName newName)
            (distInfoDirName (normalizeName newName) v)
            (dataDirName (normalizeName newName) v)
            o newName
            o (normalizeName newName)
            ui [] entries)) := by
  unfold renameWheelFromBytes
  rw [hfind]
  simp only [hder, if_neg hneq]

/-- C1: for every wheel successfully renamed — by the file-based
`rename_wheel` or by the in-memory `rename_wheel_from_bytes` on a
non-no-op rename — the regenerated RECORD entry contains, for every
output entry except RECORD itself, exactly one line `path,digest,size`
whose digest is `sha256=` followed by the URL-safe unpadded base64 of
the SHA-256 of that entry's exact output bytes and whose size is that
entry's exact byte length; the lines appear in lexicographic order of
path, followed by a single trailing self-referencing RECORD line with
empty digest and size (`RecordSpec`).  The sanity hypotheses say that
entry names and the names/version in play contain no comma and no path
separator; on the in-memory path the name/version derivation from the
first `.dist-info` entry is additionally required to succeed (otherwise
the program raises `IndexError` and there is no success to speak of). -/
theorem c1_record_manifest_complete (sha : Str → List Nat) :
    (∀ (fname : Str) (entries : List (Str × Str)) (newName : Str) (ui : Bool)
        (comps : WheelComponents) (fn : Str) (out : List (Str × Str)),
      pySuffix fname = ".whl".data →
      parseWheelFilename fname = .ok comps →
      normalizeName comps.distribution ≠ normalizeName newName →
      (∀ e ∈ entries, ',' ∉ e.1) →
      ',' ∉ normalizeName newName → '/' ∉ normalizeName newName →
      ',' ∉ comps.version → '/' ∉ comps.version →
      renameWheel sha fname entries newName ui = .ok (fn, out) →
      RecordSpec sha (distInfoDirName (normalizeName newName) comps.version) out)
    ∧ (∀ (entries : List (Str × Str)) (newName : Str) (ui : Bool)
        (d0 : Str) (drest : List Str) (o v : Str) (out : List (Str × Str)),
      (entries.map Prod.fst).filter
        (fun n => containsSub n ".dist-info/".data) = d0 :: drest →
      deriveOldNameVersion d0 = .ok (o, v) →
      o ≠ normalizeName newName →
      (∀ e ∈ entries, ',' ∉ e.1) →
      ',' ∉ normalizeName newName → '/' ∉ normalizeName newName →
      ',' ∉ v → '/' ∉ v →
      renameWheelFromBytes sha entries newName ui = .ok out →
      RecordSpec sha (distInfoDirName (normalizeName newName) v) out) := by
  constructor
  · intro fname entries newName ui comps fn out hsuf hparse hneq hents hNc hNs hvc hvs hok
    rw [renameWheel_ok_shape sha fname entries newName ui comps hsuf hparse hneq] at hok
    have hout : out = finalizeWheel sha
        (distInfoDirName (normalizeName newName) comps.version)
        (buildFiles (normalizeName comps.distribution)
          (distInfoDirName (normalizeName comps.distribution) comps.version)
          (dataDirName (normalizeName comps.distribution) comps.version)
          (normalizeName newName)
          (distInfoDirName (normalizeName newName) comps.version)
          (dataDirName (normalizeName newName) comps.version)
          comps.distribution newName
          (normalizeName comps.distribution) (normalizeName newName)
          ui [] entries) := by
      have hpair := Except.ok.inj hok
      exact (Prod.ext_iff.1 hpair).2.symm
    rw [hout]
    exact buildFiles_finalize_spec sha (normalizeName comps.distribution)
      (distInfoDirName (normalizeName comps.distribution) comps.version)
      (dataDirName (normalizeName comps.distribution) comps.version)
      (normalizeName newName) comps.version comps.distribution newName
      (normalizeName comps.distribution) (normalizeName newName) ui entries
      hents hNc hNs hvc hvs
  · intro entries newName ui d0 drest o v out hfind hder hneq hents hNc hNs hvc hvs hok
    rw [renameWheelFromBytes_ok_shape sha entries newName ui d0 drest o v
      hfind hder hneq] at hok
    have hout : out = finalizeWheel sha
        (distInfoDirName (normalizeName newName) v)
        (buildFiles o
          (distInfoDirName o v)
          (dataDirName o v)
          (normalizeName newName)
          (distInfoDirName (normalizeName newName) v)
          (dataDirName (normalizeName newName) v)
          o newName
          o (normalizeName newName)
          ui [] entries) := by
      exact (Except.ok.inj hok).symm
    rw [hout]
    exact buildFiles_finalize_spec sha o
      (distInfoDirName o v)
      (dataDirName o v)
      (normalizeName newName) v
      o newName
      o (normalizeName newName) ui entries
      hents hNc hNs hvc hvs

/-- Witness for C1 at a concrete one-source-file wheel (the digest
function is instantiated with a stub, which the abstract-hash theorem
permits). -/
theorem c1_record_manifest_complete_witness :
    RecordSpec (fun _ => []) (distInfoDirName (normalizeName "demo_v1".data) "1.0".data)
      (finalizeWheel (fun _ => [])
        (distInfoDirName (normalizeName "demo_v1".data) "1.0".data)
        (buildFiles (normalizeName "demo".data)
          (distInfoDirName (normalizeName "demo".data) "1.0".data)
          (dataDirName (normalizeName "demo".data) "1.0".data)
          (normalizeName "demo_v1".data)
          (distInfoDirName (normalizeName "demo_v1".data) "1.0".data)
          (dataDirName (normalizeName "demo_v1".data) "1.0".data)
          "demo".data "demo_v1".data
          (normalizeName "demo".data) (normalizeName "demo_v1".data)
          true [] [("demo/a.py".data, "x".data)])) :=
  (c1_record_manifest_complete (fun _ => [])).1
    "demo-1.0-py3-none-any.whl".data [("demo/a.py".data, "x".data)]
    "demo_v1".data true
    ⟨"demo".data, "1.0".data, [], "py3".data, "none".data, "any".data⟩
    (buildWheelFilename ⟨normalizeName "demo_v1".data, "1.0".data, [],
      "py3".data, "none".data, "any".data⟩)
    (finalizeWheel (fun _ => [])
      (distInfoDirName (normalizeName "demo_v1".data) "1.0".data)
      (buildFiles (normalizeName "demo".data)
        (distInfoDirName (normalizeName "demo".data) "1.0".data)
        (dataDirName (normalizeName "demo".data) "1.0".data)
        (normalizeName "demo_v1".data)
        (distInfoDirName (normalizeName "demo_v1".data) "1.0".data)
        (dataDirName (normalizeName "demo_v1".data) "1.0".data)
        "demo".data "demo_v1".data
        (normalizeName "demo".data) (normalizeName "demo_v1".data)
        true [] [("demo/a.py".data, "x".data)]))
    (by decide) (by rfl) (by decide) (by decide) (by decide) (by decide)
    (by decide) (by decide) (by rfl)

/-! Infrastructure for C8: no output path carries an old-name prefix. -/

theorem prefix_slash_eq (a b s : Str) (ha : '/' ∉ a) (hb : '/' ∉ b)
    (hs : s = [] ∨ ∃ s' : Str, s = '/' :: s')
    (h : (a ++ "/".data) <+: (b ++ s)) : a = b := by
  have hb_pre : b <+: (b ++ s) := List.prefix_append b s
  have ha_pre : a <+: (b ++ s) :=
    List.IsPrefix.trans ⟨"/".data, rfl⟩ h
  rcases List.prefix_or_prefix_of_prefix ha_pre hb_pre with hab | hba
  · rcases hab with ⟨r, hr⟩
    match r, hr with
    | [], hr => simpa using hr
    | x :: r', hr =>
      exfalso
      have hcan : "/".data <+: (x :: r') ++ s := by
        have h2 : a ++ "/".data <+: a ++ ((x :: r') ++ s) := by
          rw [← List.append_assoc, hr]
          exact h
        exact (List.prefix_append_right_inj a).mp h2
      have hx : x = '/' := by
        rcases hcan with ⟨t, ht⟩
        simp only [List.cons_append] at ht
        exact ((List.cons.injEq _ _ _ _ ▸ ht).1).symm
      apply hb
      rw [← hr, ← hx]
      simp
  · rcases hba with ⟨r, hr⟩
    match r, hr with
    | [], hr => simpa using hr.symm
    | x :: r', hr =>
      exfalso
      have hcan : (x :: r') ++ "/".data <+: s := by
        have h2 : b ++ ((x :: r') ++ "/".data) <+: b ++ s := by
          rw [← List.append_assoc, hr]
          exact h
        exact (List.prefix_append_right_inj b).mp h2
      rcases hs with h0 | ⟨s', hs'⟩
      · rw [h0] at hcan
        rcases hcan with ⟨t, ht⟩
        simp at ht
      · rw [hs'] at hcan
        have hx : x = '/' := by
          rcases hcan with ⟨t, ht⟩
          simp only [List.cons_append] at ht
          exact (List.cons.injEq _ _ _ _ ▸ ht).1
        apply ha
        rw [← hr, ← hx]
        simp

theorem dash_sep_inj (a b t t2 : Str) (ha : '-' ∉ a) (hb : '-' ∉ b)
    (h : a ++ '-' :: t = b ++ '-' :: t2) : a = b ∧ t = t2 := by
  have hab : a <+: b ++ '-' :: t2 := ⟨'-' :: t, by rw [← h]⟩
  have hbb : b <+: b ++ '-' :: t2 := List.prefix_append b _
  rcases List.prefix_or_prefix_of_prefix hab hbb with hc | hc
  · rcases hc with ⟨r, hr⟩
    match r, hr with
    | [], hr =>
      simp only [List.append_nil] at hr
      subst hr
      have h2 := List.append_cancel_left h
      exact ⟨rfl, by injection h2⟩
    | x :: r', hr =>
      exfalso
      rw [← hr, List.append_assoc] at h
      have := List.append_cancel_left h
      have hx : x = '-' := by
        simp only [List.cons_append] at this
        exact ((List.cons.injEq _ _ _ _ ▸ this).1).symm
      apply hb
      rw [← hr, ← hx]
      simp
  · rcases hc with ⟨r, hr⟩
    match r, hr with
    | [], hr =>
      simp only [List.append_nil] at hr
      subst hr
      have h2 := List.append_cancel_left h
      exact ⟨rfl, by injection h2⟩
    | x :: r', hr =>
      exfalso
      rw [← hr, List.append_assoc] at h
      have := List.append_cancel_left h
      have hx : x = '-' := by
        simp only [List.cons_append] at this
        exact (List.cons.injEq _ _ _ _ ▸ this).1
      apply ha
      rw [← hr, ← hx]
      simp

/-- The C8 property of one output path: it does not begin with the old
package root (`{old}/` or the exact path `{old}`), nor with the old
metadata- or data-directory prefixes. -/
def NoOldPrefix (oldN oldDI oldDD p : Str) : Prop :=
  ¬ ((oldN ++ "/".data) <+: p) ∧ p ≠ oldN
    ∧ ¬ ((oldDI ++ "/".data) <+: p) ∧ ¬ ((oldDD ++ "/".data) <+: p)

theorem drop_shape_of_root_guard (oldPre name : Str)
    (hg : ((oldPre ++ "/".data).isPrefixOf name || name = oldPre) = true) :
    name.drop oldPre.length = [] ∨ ∃ s' : Str, name.drop oldPre.length = '/' :: s' := by
  rcases Bool.or_eq_true_iff.1 hg with h | h
  · right
    rcases List.isPrefixOf_iff_prefix.1 h with ⟨r, hr⟩
    refine ⟨r, ?_⟩
    rw [← hr, List.append_assoc]
    have : ("/".data : Str) ++ r = '/' :: r := rfl
    rw [this, List.drop_left]
  · left
    have hname : name = oldPre := by simpa using h
    rw [hname]
    simp

theorem noOldPrefix_newKey (oldN newN ver pre suf : Str)
    (hpre : pre = newN ∨ pre = distInfoDirName newN ver ∨ pre = dataDirName newN ver)
    (hsuf : suf = [] ∨ ∃ s' : Str, suf = '/' :: s')
    (hod : '-' ∉ oldN) (hnd : '-' ∉ newN)
    (hos : '/' ∉ oldN) (hns : '/' ∉ newN) (hvs : '/' ∉ ver)
    (hne : oldN ≠ newN) :
    NoOldPrefix oldN (distInfoDirName oldN ver) (dataDirName oldN ver) (pre ++ suf) := by
  have hDIs : '/' ∉ distInfoDirName newN ver :=
    not_mem_distInfoDirName '/' newN ver (by decide) (by decide) hns hvs
  have hDDs : '/' ∉ dataDirName newN ver :=
    not_mem_dataDirName '/' newN ver (by decide) (by decide) hns hvs
  have hpre_slash : '/' ∉ pre := by
    rcases hpre with h | h | h <;> rw [h] <;> assumption
  have hoDIs : '/' ∉ distInfoDirName oldN ver :=
    not_mem_distInfoDirName '/' oldN ver (by decide) (by decide) hos hvs
  have hoDDs : '/' ∉ dataDirName oldN ver :=
    not_mem_dataDirName '/' oldN ver (by decide) (by decide) hos hvs
  have hpre_ne_old : ∀ q : Str, '/' ∉ q → (q ++ "/".data) <+: (pre ++ suf) → q = pre :=
    fun q hq hp => prefix_slash_eq q pre suf hq hpre_slash hsuf hp
  refine ⟨?_, ?_, ?_, ?_⟩
  · intro hp
    have heq := hpre_ne_old oldN hos hp
    rcases hpre with h | h | h
    · rw [h] at heq
      exact hne heq
    · rw [h] at heq
      apply hod
      rw [heq]
      simp [distInfoDirName]
    · rw [h] at heq
      apply hod
      rw [heq]
      simp [dataDirName]
  · intro hp
    rcases hsuf with h0 | ⟨s', hs'⟩
    · rw [h0, List.append_nil] at hp
      rcases hpre with h | h | h
      · rw [h] at hp; exact hne hp.symm
      · rw [h] at hp
        apply hod
        rw [← hp]
        simp [distInfoDirName]
      · rw [h] at hp
        apply hod
        rw [← hp]
        simp [dataDirName]
    · apply hos
      rw [← hp, hs']
      simp
  · intro hp
    have heq := hpre_ne_old (distInfoDirName oldN ver) hoDIs hp
    rcases hpre with h | h | h
    · rw [h] at heq
      apply hnd
      rw [← heq]
      simp [distInfoDirName]
    · rw [h] at heq
      have hinj := dash_sep_inj oldN newN (ver ++ ".dist-info".data)
        (ver ++ ".dist-info".data) hod hnd (by
          simpa [distInfoDirName, List.append_assoc] using heq)
      exact hne hinj.1
    · rw [h] at heq
      have hinj := dash_sep_inj oldN newN (ver ++ ".dist-info".data)
        (ver ++ ".data".data) hod hnd (by
          simpa [distInfoDirName, dataDirName, List.append_assoc] using heq)
      have := List.append_cancel_left hinj.2
      simp at this
  · intro hp
    have heq := hpre_ne_old (dataDirName oldN ver) hoDDs hp
    rcases hpre with h | h | h
    · rw [h] at heq
      apply hnd
      rw [← heq]
      simp [dataDirName]
    · rw [h] at heq
      have hinj := dash_sep_inj oldN newN (ver ++ ".data".data)
        (ver ++ ".dist-info".data) hod hnd (by
          simpa [distInfoDirName, dataDirName, List.append_assoc] using heq)
      have := List.append_cancel_left hinj.2
      simp at this
    · rw [h] at heq
      have hinj := dash_sep_inj oldN newN (ver ++ ".data".data)
        (ver ++ ".data".data) hod hnd (by
          simpa [dataDirName, List.append_assoc] using heq)
      exact hne hinj.1

theorem renameEntryPath_no_old (oldN ver newN name : Str)
    (hod : '-' ∉ oldN) (hnd : '-' ∉ newN)
    (hos : '/' ∉ oldN) (hns : '/' ∉ newN) (hvs : '/' ∉ ver) (hne : oldN ≠ newN) :
    NoOldPrefix oldN (distInfoDirName oldN ver) (dataDirName oldN ver)
      (renameEntryPath oldN (distInfoDirName oldN ver) (dataDirName oldN ver)
        newN (distInfoDirName newN ver) (dataDirName newN ver) name) := by
  unfold renameEntryPath
  by_cases h1 : ((oldN ++ "/".data).isPrefixOf name || name = oldN) = true
  · rw [if_pos h1]
    exact noOldPrefix_newKey oldN newN ver newN (name.drop oldN.length)
      (Or.inl rfl) (drop_shape_of_root_guard oldN name h1) hod hnd hos hns hvs hne
  · rw [if_neg h1]
    by_cases h2 : ((distInfoDirName oldN ver ++ "/".data).isPrefixOf name
        || name = distInfoDirName oldN ver) = true
    · rw [if_pos h2]
      exact noOldPrefix_newKey oldN newN ver (distInfoDirName newN ver)
        (name.drop (distInfoDirName oldN ver).length)
        (Or.inr (Or.inl rfl))
        (drop_shape_of_root_guard (distInfoDirName oldN ver) name h2)
        hod hnd hos hns hvs hne
    · rw [if_neg h2]
      by_cases h3 : ((dataDirName oldN ver ++ "/".data).isPrefixOf name
          || name = dataDirName oldN ver) = true
      · rw [if_pos h3]
        exact noOldPrefix_newKey oldN newN ver (dataDirName newN ver)
          (name.drop (dataDirName oldN ver).length)
          (Or.inr (Or.inr rfl))
          (drop_shape_of_root_guard (dataDirName oldN ver) name h3)
          hod hnd hos hns hvs hne
      · rw [if_neg h3]
        simp only [Bool.or_eq_true_iff, not_or, List.isPrefixOf_iff_prefix,
          decide_eq_true_eq] at h1 h2 h3
        exact ⟨h1.1, h1.2, h2.1, h3.1⟩

theorem mem_keys_sortEntries_iff (l : List (Str × Str)) (p : Str) :
    p ∈ (sortEntries l).map Prod.fst ↔ p ∈ l.map Prod.fst :=
  ((sortEntries_perm l).map Prod.fst).mem_iff

theorem finalize_buildFiles_no_old (sha : Str → List Nat)
    (oldN ver newN mo mn io iN : Str) (ui : Bool) (entries : List (Str × Str))
    (hod : '-' ∉ oldN) (hnd : '-' ∉ newN)
    (hos : '/' ∉ oldN) (hns : '/' ∉ newN) (hvs : '/' ∉ ver) (hne : oldN ≠ newN) :
    ∀ p ∈ (finalizeWheel sha (distInfoDirName newN ver)
        (buildFiles oldN (distInfoDirName oldN ver) (dataDirName oldN ver)
          newN (distInfoDirName newN ver) (dataDirName newN ver)
          mo mn io iN ui [] entries)).map Prod.fst,
      NoOldPrefix oldN (distInfoDirName oldN ver) (dataDirName oldN ver) p := by
  intro p hp
  simp only [finalizeWheel] at hp
  rw [mem_keys_sortEntries_iff] at hp
  rcases keys_upsertEntry _ _ _ p hp with h1 | h2
  · rw [h1]
    exact noOldPrefix_newKey oldN newN ver (distInfoDirName newN ver) "/RECORD".data
      (Or.inr (Or.inl rfl)) (Or.inr ⟨"RECORD".data, rfl⟩) hod hnd hos hns hvs hne
  · refine buildFiles_keys_prop
      (NoOldPrefix oldN (distInfoDirName oldN ver) (dataDirName oldN ver))
      oldN (distInfoDirName oldN ver) (dataDirName oldN ver)
      newN (distInfoDirName newN ver) (dataDirName newN ver)
      mo mn io iN ui entries ?_ [] (by simp) p h2
    intro e _ _
    exact renameEntryPath_no_old oldN ver newN e.1 hod hnd hos hns hvs hne

theorem finalize_buildFiles_mem_key (sha : Str → List Nat)
    (oldN oldDI oldDD newN newDI newDD mo mn io iN : Str) (ui : Bool)
    (entries : List (Str × Str)) (e : Str × Str) (he : e ∈ entries)
    (hrec : pyEndsWith e.1 "/RECORD".data = false) :
    renameEntryPath oldN oldDI oldDD newN newDI newDD e.1
      ∈ (finalizeWheel sha newDI
          (buildFiles oldN oldDI oldDD newN newDI newDD mo mn io iN ui
            [] entries)).map Prod.fst := by
  simp only [finalizeWheel]
  rw [mem_keys_sortEntries_iff]
  exact mem_keys_upsertEntry_of_mem _ _ _ _
    (buildFiles_maps_entry oldN oldDI oldDD newN newDI newDD mo mn io iN ui
      entries [] e he hrec)

/-- The C8 property of a rename: no output path begins with an old-name
prefix, and every input entry that is not an old-RECORD entry appears in
the output at the path with its reserved prefix substituted and the rest
preserved. -/
def RenamedPathsSpec (oldN ver newN : Str) (entries out : List (Str × Str)) : Prop :=
  (∀ p c : Str, (p, c) ∈ out →
      NoOldPrefix oldN (distInfoDirName oldN ver) (dataDirName oldN ver) p)
    ∧ (∀ name content : Str, (name, content) ∈ entries →
        pyEndsWith name "/RECORD".data = false →
        renameEntryPath oldN (distInfoDirName oldN ver) (dataDirName oldN ver)
          newN (distInfoDirName newN ver) (dataDirName newN ver) name
          ∈ out.map Prod.fst)

/-- C8 as amended: for every successful rename (the in-memory path on an
actual, non-no-op rename), with names free of dashes and slashes as the
wheel conventions guarantee, (a) no output entry path begins with the old
package root (`{old}/` or exactly `{old}`), old metadata-directory or old
data-directory prefix, and (b) every input entry that matched one of the
reserved prefixes — except entries ending in `/RECORD`, which are
dropped and RECORD regenerated — appears in the output at the path with
the corresponding new-name prefix substituted and everything after the
prefix preserved verbatim (`renameEntryPath`).  On the in-memory path the
name/version derivation from the first `.dist-info` entry is required to
succeed; when it raises `IndexError` there is no successful rename. -/
theorem c8_no_leftover_old_paths_amended (sha : Str → List Nat) :
    (∀ (fname : Str) (entries : List (Str × Str)) (newName : Str) (ui : Bool)
        (comps : WheelComponents) (fn : Str) (out : List (Str × Str)),
      pySuffix fname = ".whl".data →
      parseWheelFilename fname = .ok comps →
      normalizeName comps.distribution ≠ normalizeName newName →
      '-' ∉ normalizeName comps.distribution → '-' ∉ normalizeName newName →
      '/' ∉ normalizeName comps.distribution → '/' ∉ normalizeName newName →
      '/' ∉ comps.version →
      renameWheel sha fname entries newName ui = .ok (fn, out) →
      RenamedPathsSpec (normalizeName comps.distribution) comps.version
        (normalizeName newName) entries out)
    ∧ (∀ (entries : List (Str × Str)) (newName : Str) (ui : Bool)
        (d0 : Str) (drest : List Str) (o v : Str) (out : List (Str × Str)),
      (entries.map Prod.fst).filter
        (fun n => containsSub n ".dist-info/".data) = d0 :: drest →
      deriveOldNameVersion d0 = .ok (o, v) →
      o ≠ normalizeName newName →
      '-' ∉ o → '-' ∉ normalizeName newName →
      '/' ∉ o → '/' ∉ normalizeName newName →
      '/' ∉ v →
      renameWheelFromBytes sha entries newName ui = .ok out →
      RenamedPathsSpec o v (normalizeName newName) entries out) := by
  constructor
  · intro fname entries newName ui comps fn out hsuf hparse hneq hod hnd hos hns hvs hok
    rw [renameWheel_ok_shape sha fname entries newName ui comps hsuf hparse hneq] at hok
    injection hok with hpair
    injection hpair with hfn hout
    rw [← hout]
    constructor
    · intro p c hmem
      exact finalize_buildFiles_no_old sha (normalizeName comps.distribution)
        comps.version (normalizeName newName) comps.distribution newName
        (normalizeName comps.distribution) (normalizeName newName) ui entries
        hod hnd hos hns hvs hneq p (List.mem_map.2 ⟨(p, c), hmem, rfl⟩)
    · intro name content hmem hrec
      exact finalize_buildFiles_mem_key sha (normalizeName comps.distribution)
        (distInfoDirName (normalizeName comps.distribution) comps.version)
        (dataDirName (normalizeName comps.distribution) comps.version)
        (normalizeName newName)
        (distInfoDirName (normalizeName newName) comps.version)
        (dataDirName (normalizeName newName) comps.version)
        comps.distribution newName
        (normalizeName comps.distribution) (normalizeName newName) ui entries
        (name, content) hmem hrec
  · intro entries newName ui d0 drest o v out hfind hder hneq hod hnd hos hns hvs hok
    rw [renameWheelFromBytes_ok_shape sha entries newName ui d0 drest o v
      hfind hder hneq] at hok
    have hout := (Except.ok.inj hok).symm
    rw [hout]
    constructor
    · intro p c hmem
      exact finalize_buildFiles_no_old sha o
        v (normalizeName newName)
        o newName
        o (normalizeName newName) ui entries
        hod hnd hos hns hvs hneq p (List.mem_map.2 ⟨(p, c), hmem, rfl⟩)
    · intro name content hmem hrec
      exact finalize_buildFiles_mem_key sha o
        (distInfoDirName o v)
        (dataDirName o v)
        (normalizeName newName)
        (distInfoDirName (normalizeName newName) v)
        (dataDirName (normalizeName newName) v)
        o newName
        o (normalizeName newName) ui entries
        (name, content) hmem hrec

/-- Counterexample to C8 as stated: the input entry `icechunk/RECORD`
matches the old package-root prefix `icechunk/`, yet it does not appear
in the output under the new prefix (`icechunk_v1/RECORD` is absent) —
entries whose path ends in `/RECORD` are dropped by the rewrite loop. -/
theorem c8_counterexample_package_root_record_dropped :
    ("icechunk".data ++ "/".data) <+: "icechunk/RECORD".data
      ∧ renameWheelFromBytes (fun _ => [])
          [("icechunk-1.0.0.dist-info/METADATA".data, "Name: icechunk".data),
           ("icechunk/RECORD".data, "x".data)] "icechunk_v1".data true
        = .ok [("icechunk_v1-1.0.0.dist-info/METADATA".data,
                 "Name: icechunk_v1".data),
               ("icechunk_v1-1.0.0.dist-info/RECORD".data,
                 ("icechunk_v1-1.0.0.dist-info/METADATA,sha256=,17\n"
                   ++ "icechunk_v1-1.0.0.dist-info/RECORD,,").data)]
      ∧ ("icechunk_v1".data ++ "/RECORD".data)
          ∉ ["icechunk_v1-1.0.0.dist-info/METADATA".data,
             "icechunk_v1-1.0.0.dist-info/RECORD".data] := by
  refine ⟨by decide, by rfl, by decide⟩

/-- Witness for the amended C8: a one-entry wheel renamed through the
in-memory path. -/
theorem c8_no_leftover_old_paths_amended_witness :
    RenamedPathsSpec "icechunk".data "1.0.0".data
      (normalizeName "icechunk_v1".data)
      [("icechunk-1.0.0.dist-info/METADATA".data, "Name: icechunk".data)]
      (finalizeWheel (fun _ => [])
        (distInfoDirName (normalizeName "icechunk_v1".data) "1.0.0".data)
        (buildFiles "icechunk".data
          (distInfoDirName "icechunk".data "1.0.0".data)
          (dataDirName "icechunk".data "1.0.0".data)
          (normalizeName "icechunk_v1".data)
          (distInfoDirName (normalizeName "icechunk_v1".data) "1.0.0".data)
          (dataDirName (normalizeName "icechunk_v1".data) "1.0.0".data)
          "icechunk".data
          "icechunk_v1".data
          "icechunk".data
          (normalizeName "icechunk_v1".data)
          true []
          [("icechunk-1.0.0.dist-info/METADATA".data, "Name: icechunk".data)])) :=
  (c8_no_leftover_old_paths_amended (fun _ => [])).2
    [("icechunk-1.0.0.dist-info/METADATA".data, "Name: icechunk".data)]
    "icechunk_v1".data true "icechunk-1.0.0.dist-info/METADATA".data []
    "icechunk".data "1.0.0".data
    (finalizeWheel (fun _ => [])
      (distInfoDirName (normalizeName "icechunk_v1".data) "1.0.0".data)
      (buildFiles "icechunk".data
        (distInfoDirName "icechunk".data "1.0.0".data)
        (dataDirName "icechunk".data "1.0.0".data)
        (normalizeName "icechunk_v1".data)
        (distInfoDirName (normalizeName "icechunk_v1".data) "1.0.0".data)
        (dataDirName (normalizeName "icechunk_v1".data) "1.0.0".data)
        "icechunk".data
        "icechunk_v1".data
        "icechunk".data
        (normalizeName "icechunk_v1".data)
        true []
        [("icechunk-1.0.0.dist-info/METADATA".data, "Name: icechunk".data)]))
    (by decide) (by rfl) (by decide) (by decide) (by decide) (by decide)
    (by decide) (by decide) (by rfl)
